import Mathlib

/-!
# History recording and replay (`pkg/history/history.go`)

A shallow embedding of the recorder (`Recorder.record`, `RecordRequest`,
`RecordResponse`) and of the replayer/verifier (`VerifyHistory`).

Conventions of the embedding:

* a byte slice is a list of byte values (`Bytes`); the newline byte is `10`,
  carriage return is `13`;
* Go's `interface{}` is `Option V`: `none` is the `nil` interface;
* a Go pair `(x, error)` is `Except E`;
* `uint` is a natural number reduced modulo `2 ^ 64` at every increment;
* the map `procID : map[int]uint` is an association list without repeated keys;
  the order in which `range` visits it is chosen by the runtime and is a
  parameter (`rangeOrder`) that returns some permutation of the entries;
* the scanner is `bufio.NewScanner(f)` with the split function `bufio.ScanLines`
  and the default buffer: a line of `bufio.MaxScanTokenSize` bytes or more ends
  the scan with an error (`scanFile`);
* the functions of `encoding/json`, the oracle `porcupine.CheckEvents` and the
  file system are parameters: their code is not part of this package.
-/

namespace History

/-! ## Data model -/

/-- A byte slice. -/
abbrev Bytes := List Nat

/-- The constant `InvokeOperation`. -/
def InvokeOperation : String := "call"

/-- The constant `ReturnOperation`. -/
def ReturnOperation : String := "return"

/-- The on-disk record `operation`. -/
structure operation where
  Action : String
  Proc : Int
  Data : Bytes
deriving DecidableEq, Repr

/-- The two kinds of `porcupine.Event`. -/
inductive EventKind where
  | CallEvent
  | ReturnEvent
deriving DecidableEq, Repr

/-- The fields of `porcupine.Event` that `VerifyHistory` fills in. -/
structure Event (V : Type) where
  Kind : EventKind
  Id : Nat
  Value : Option V
deriving DecidableEq, Repr

/-- The functions of `encoding/json` that the package calls: `json.Marshal` on a
payload, `json.Marshal` on an `operation`, and `json.Unmarshal` into an
`operation`. -/
structure JsonCodec (E A : Type) where
  MarshalValue : A → Except E Bytes
  MarshalOperation : operation → Except E Bytes
  Unmarshal : Bytes → Except E operation

/-- The interface `RecordParser`. `OnResponse` returning `ok none` is the
"infinite end time" (unresolved) answer. -/
structure RecordParser (E V : Type) where
  OnRequest : Bytes → Except E (Option V)
  OnResponse : Bytes → Except E (Option V)
  OnNoopResponse : Option V

/-! ## Recorder -/

/-- The log file behind `Recorder.f` (opened with `O_APPEND`): its content. -/
structure Recorder where
  f : Bytes
deriving DecidableEq, Repr

/-- What one write call on the file does: it writes everything, or it writes
the first `written` bytes and reports `err`. -/
inductive WriteOutcome (E : Type) where
  | done
  | failed (written : Nat) (err : E)

/-- One call of `r.f.Write` / `r.f.WriteString`. -/
def fileWrite {E : Type} (r : Recorder) (data : Bytes) :
    WriteOutcome E → Recorder × Option E
  | .done => (⟨r.f ++ data⟩, none)
  | .failed n err => (⟨r.f ++ data.take n⟩, some err)

/-- The method `Recorder.record`. `w1` and `w2` are the outcomes of the two
writes. The result is the file afterwards and the returned error. -/
def record {E A : Type} (json : JsonCodec E A) (r : Recorder) (proc : Int)
    (action : String) (op : A) (w1 w2 : WriteOutcome E) : Recorder × Option E :=
  match json.MarshalValue op with
  | .error err => (r, some err)
  | .ok data =>
    let v : operation := { Action := action, Proc := proc, Data := data }
    match json.MarshalOperation v with
    | .error err => (r, some err)
    | .ok data =>
      match fileWrite r data w1 with
      | (r1, some err) => (r1, some err)
      | (r1, none) =>
        match fileWrite r1 [10] w2 with
        | (r2, some err) => (r2, some err)
        | (r2, none) => (r2, none)

/-- The method `Recorder.RecordRequest`. -/
def RecordRequest {E A : Type} (json : JsonCodec E A) (r : Recorder) (proc : Int)
    (op : A) (w1 w2 : WriteOutcome E) : Recorder × Option E :=
  record json r proc InvokeOperation op w1 w2

/-- The method `Recorder.RecordResponse`. -/
def RecordResponse {E A : Type} (json : JsonCodec E A) (r : Recorder) (proc : Int)
    (op : A) (w1 w2 : WriteOutcome E) : Recorder × Option E :=
  record json r proc ReturnOperation op w1 w2

/-! ## Replay -/

/-- The read `procID[k]`: the stored id, or the zero value of `uint`. -/
def mapLookup (m : List (Int × Nat)) (k : Int) : Nat :=
  (m.lookup k).getD 0

/-- The statement `delete(procID, k)`. -/
def mapDelete (m : List (Int × Nat)) (k : Int) : List (Int × Nat) :=
  m.filter (fun e => decide (e.1 ≠ k))

/-- The assignment `procID[k] = v`. -/
def mapStore (m : List (Int × Nat)) (k : Int) (v : Nat) : List (Int × Nat) :=
  (k, v) :: mapDelete m k

/-- The number of values of `uint`. -/
def uintSize : Nat := 2 ^ 64

/-- The local variables of `VerifyHistory` that the loop updates. -/
structure ReplayState (V : Type) where
  procID : List (Int × Nat)
  id : Nat
  events : List (Event V)
deriving DecidableEq, Repr

/-- The variables before the loop: an empty map, counter `0`, no events. -/
def initState (V : Type) : ReplayState V :=
  { procID := [], id := 0, events := [] }

/-- One iteration of the `for scanner.Scan()` loop on the line `line`. -/
def replayStep {E A V : Type} (json : JsonCodec E A) (p : RecordParser E V)
    (s : ReplayState V) (line : Bytes) : Except E (ReplayState V) :=
  match json.Unmarshal line with
  | .error err => .error err
  | .ok op =>
    if op.Action = InvokeOperation then
      match p.OnRequest op.Data with
      | .error err => .error err
      | .ok value =>
        .ok { events := s.events ++ [{ Kind := .CallEvent, Id := s.id, Value := value }]
              procID := mapStore s.procID op.Proc s.id
              id := (s.id + 1) % uintSize }
    else
      match p.OnResponse op.Data with
      | .error err => .error err
      | .ok none => .ok s
      | .ok (some v) =>
        .ok { events := s.events ++
                [{ Kind := .ReturnEvent, Id := mapLookup s.procID op.Proc, Value := some v }]
              procID := mapDelete s.procID op.Proc
              id := s.id }

/-- The `for scanner.Scan()` loop over the lines the scanner yields; the first
error ends it. -/
def replayLoop {E A V : Type} (json : JsonCodec E A) (p : RecordParser E V) :
    ReplayState V → List Bytes → Except E (ReplayState V)
  | s, [] => .ok s
  | s, line :: rest =>
    match replayStep json p s line with
    | .error err => .error err
    | .ok s1 => replayLoop json p s1 rest

/-- The events of the final `for _, id := range procID` loop, each with the
proc of the map entry it comes from, for the visiting order `entries`. -/
def synthesized {E V : Type} (p : RecordParser E V) (entries : List (Int × Nat)) :
    List (Int × Event V) :=
  entries.map (fun e => (e.1, { Kind := .ReturnEvent, Id := e.2, Value := p.OnNoopResponse }))

/-- What the scanner hands to the loop: the lines it yields, and the value of
`scanner.Err()` once `Scan` has returned false. -/
structure ScanResult (E : Type) where
  tokens : List Bytes
  err : Option E

/-- The body of `VerifyHistory` between opening the file and calling the
oracle: the event slice that is passed to `porcupine.CheckEvents`, or the
error that is returned instead. -/
def replayEvents {E A V : Type} (json : JsonCodec E A) (p : RecordParser E V)
    (rangeOrder : List (Int × Nat) → List (Int × Nat)) (sr : ScanResult E) :
    Except E (List (Event V)) :=
  match replayLoop json p (initState V) sr.tokens with
  | .error err => .error err
  | .ok s =>
    match sr.err with
    | some err => .error err
    | none => .ok (s.events ++ (synthesized p (rangeOrder s.procID)).map Prod.snd)

/-- The result of `VerifyHistory`: the two returned values, and the argument
lists of the calls made to the oracle. -/
structure VerifyResult (E M V : Type) where
  ok : Bool
  err : Option E
  oracleCalls : List (M × List (Event V))

/-- The function `VerifyHistory`. `fs name` is the result of `os.Open(name)`
followed by scanning the file; `check` is `porcupine.CheckEvents`. -/
def VerifyHistory {E A M V : Type} (json : JsonCodec E A)
    (fs : String → Except E (ScanResult E))
    (check : M → List (Event V) → Bool)
    (rangeOrder : List (Int × Nat) → List (Int × Nat))
    (name : String) (m : M) (p : RecordParser E V) : VerifyResult E M V :=
  match fs name with
  | .error err => { ok := false, err := some err, oracleCalls := [] }
  | .ok sr =>
    match replayEvents json p rangeOrder sr with
    | .error err => { ok := false, err := some err, oracleCalls := [] }
    | .ok events => { ok := check m events, err := none, oracleCalls := [(m, events)] }

/-- The split function `bufio.ScanLines` strips one trailing carriage return. -/
def dropCR (data : Bytes) : Bytes :=
  if data.getLast? = some 13 then data.dropLast else data

/-- The lines into which the split function `bufio.ScanLines` cuts `data`, where
`cur` holds the bytes of the current line read so far. -/
def scanLinesFrom : Bytes → Bytes → List Bytes
  | cur, [] => if cur = [] then [] else [dropCR cur]
  | cur, b :: rest =>
    if b = 10 then dropCR cur :: scanLinesFrom [] rest
    else scanLinesFrom (cur ++ [b]) rest

/-- The lines into which `bufio.ScanLines` cuts the content `data`: what a
scanner yields as long as no line exceeds its buffer. -/
def scanLines (data : Bytes) : List Bytes :=
  scanLinesFrom [] data

/-- The constant `bufio.MaxScanTokenSize`: the capacity of the buffer of a
scanner made by `bufio.NewScanner`. -/
def MaxScanTokenSize : Nat := 64 * 1024

/-- The scanner of `VerifyHistory`, `bufio.NewScanner(f)` with the split
function `bufio.ScanLines` and the default buffer, on the bytes `data` that are
left to read, where `cur` holds the bytes of the current line read so far. A
line of `MaxScanTokenSize` bytes or more fills the buffer before its end is
seen: the scanner yields no further token and `scanner.Err()` is `errTooLong`
(`bufio.ErrTooLong`). -/
def scanTokensFrom {E : Type} (errTooLong : E) : Bytes → Bytes → ScanResult E
  | cur, [] =>
    if cur = [] then { tokens := [], err := none }
    else if MaxScanTokenSize ≤ cur.length then { tokens := [], err := some errTooLong }
    else { tokens := [dropCR cur], err := none }
  | cur, b :: rest =>
    if MaxScanTokenSize ≤ cur.length then { tokens := [], err := some errTooLong }
    else if b = 10 then
      { tokens := dropCR cur :: (scanTokensFrom errTooLong [] rest).tokens
        err := (scanTokensFrom errTooLong [] rest).err }
    else scanTokensFrom errTooLong (cur ++ [b]) rest

/-- Scanning a file with content `data` that is read to its end without I/O
error: the tokens the scanner of `VerifyHistory` yields and its final error. -/
def scanFile {E : Type} (errTooLong : E) (data : Bytes) : ScanResult E :=
  scanTokensFrom errTooLong [] data

/-! ## The record view of a line -/

/-- What a line is to the loop once it is decoded: an Invoke record with its
decoded value, a Complete record with a resolved value, or a Complete record
whose decode is unresolved. -/
inductive Rec (V : Type) where
  | call (proc : Int) (value : Option V)
  | resolved (proc : Int) (value : V)
  | unresolved (proc : Int)
deriving DecidableEq, Repr

/-- The decoding part of one loop iteration: `json.Unmarshal`, the test on
`op.Action`, and `OnRequest` or `OnResponse`. -/
def classify {E A V : Type} (json : JsonCodec E A) (p : RecordParser E V)
    (line : Bytes) : Except E (Rec V) :=
  match json.Unmarshal line with
  | .error err => .error err
  | .ok op =>
    if op.Action = InvokeOperation then
      match p.OnRequest op.Data with
      | .error err => .error err
      | .ok value => .ok (.call op.Proc value)
    else
      match p.OnResponse op.Data with
      | .error err => .error err
      | .ok none => .ok (.unresolved op.Proc)
      | .ok (some v) => .ok (.resolved op.Proc v)

/-- The state update of one loop iteration on a decoded record. -/
def applyRec {V : Type} (s : ReplayState V) : Rec V → ReplayState V
  | .call proc value =>
    { events := s.events ++ [{ Kind := .CallEvent, Id := s.id, Value := value }]
      procID := mapStore s.procID proc s.id
      id := (s.id + 1) % uintSize }
  | .resolved proc v =>
    { events := s.events ++
        [{ Kind := .ReturnEvent, Id := mapLookup s.procID proc, Value := some v }]
      procID := mapDelete s.procID proc
      id := s.id }
  | .unresolved _ => s

/-- Decoding of all lines in file order; the first error ends it. -/
def decodeAll {E A V : Type} (json : JsonCodec E A) (p : RecordParser E V) :
    List Bytes → Except E (List (Rec V))
  | [] => .ok []
  | line :: rest =>
    match classify json p line with
    | .error err => .error err
    | .ok r =>
      match decodeAll json p rest with
      | .error err => .error err
      | .ok rs => .ok (r :: rs)

/-- The loop on decoded records. -/
def runRecs {V : Type} (s : ReplayState V) (recs : List (Rec V)) : ReplayState V :=
  recs.foldl applyRec s

/-! ## Fixtures for concrete runs

A stand-in for `encoding/json` on a toy line format: a line is
`[tag, proc, payload...]` with tag `1` for action "call", `2` for "return"
and `3` for "noise"; anything else does not decode. -/

/-- Toy `json.Unmarshal`. -/
def toyUnmarshal : Bytes → Except String operation
  | 1 :: pr :: d => .ok { Action := "call", Proc := pr, Data := d }
  | 2 :: pr :: d => .ok { Action := "return", Proc := pr, Data := d }
  | 3 :: pr :: d => .ok { Action := "noise", Proc := pr, Data := d }
  | _ => .error "invalid character"

/-- Toy `json.Marshal` on an `operation`. -/
def toyMarshalOperation (op : operation) : Except String Bytes :=
  if op.Proc < 0 ∨ op.Proc.toNat = 10 ∨ 10 ∈ op.Data ∨ (op.Proc.toNat :: op.Data).getLast? = some 13 then
    .error "unsupported value"
  else if op.Action = "call" then .ok (1 :: op.Proc.toNat :: op.Data)
  else if op.Action = "return" then .ok (2 :: op.Proc.toNat :: op.Data)
  else .error "unsupported value"

/-- Toy `json.Marshal` on a payload: payloads are byte strings. -/
def toyMarshalValue (a : Bytes) : Except String Bytes := .ok a

/-- The toy codec. -/
def toyJson : JsonCodec String Bytes :=
  { MarshalValue := toyMarshalValue
    MarshalOperation := toyMarshalOperation
    Unmarshal := toyUnmarshal }

/-- A parser over byte-string values: the payload `[0]` is rejected, the
response payload `[]` is unresolved, the noop response is `[255]`. -/
def toyParser : RecordParser String Bytes :=
  { OnRequest := fun d => if d = [0] then .error "bad request" else .ok (some d)
    OnResponse := fun d =>
      if d = [0] then .error "bad response" else if d = [] then .ok none else .ok (some d)
    OnNoopResponse := some [255] }

/-! ## Notions on decoded records -/

/-- The entries of the map for the proc `P`. -/
def entriesOf (P : Int) (m : List (Int × Nat)) : List (Int × Nat) :=
  m.filter (fun e => decide (e.1 = P))

/-- Whether the record is an Invoke record of the proc `P`. -/
def isCallOf {V : Type} (P : Int) : Rec V → Bool
  | .call proc _ => decide (proc = P)
  | _ => false

/-- Whether the record is a resolved Complete record of the proc `P`. -/
def isResolvedOf {V : Type} (P : Int) : Rec V → Bool
  | .resolved proc _ => decide (proc = P)
  | _ => false

/-- The procs of the entries of the map. -/
def keys (m : List (Int × Nat)) : List Int :=
  m.map Prod.fst

/-- The procs that have a pending Call after one more record, given those that
had one before it: an Invoke record makes its proc pending, a resolved Complete
record ends it, an unresolved Complete record changes nothing. -/
def pendingAfter {V : Type} (pend : List Int) : Rec V → List Int
  | .call proc _ => proc :: pend.filter (fun k => decide (k ≠ proc))
  | .resolved proc _ => pend.filter (fun k => decide (k ≠ proc))
  | .unresolved _ => pend

/-- No orphaned Complete: every resolved Complete record is for a proc that has
a pending Call at that point (`pend` are the procs pending at the start). -/
def noOrphan {V : Type} : List Int → List (Rec V) → Bool
  | _, [] => true
  | pend, r :: rs =>
    (match r with
      | .resolved proc _ => decide (proc ∈ pend)
      | _ => true) && noOrphan (pendingAfter pend r) rs

/-- No double Call: no Invoke record is for a proc that has a pending Call at
that point (`pend` are the procs pending at the start). -/
def noDoubleCall {V : Type} : List Int → List (Rec V) → Bool
  | _, [] => true
  | pend, r :: rs =>
    (match r with
      | .call proc _ => decide (proc ∉ pend)
      | _ => true) && noDoubleCall (pendingAfter pend r) rs

/-- The number of Call events of an event sequence. -/
def numCallEvents {V : Type} (events : List (Event V)) : Nat :=
  events.countP (fun e => decide (e.Kind = .CallEvent))

/-- The number of Return events of an event sequence. -/
def numReturnEvents {V : Type} (events : List (Event V)) : Nat :=
  events.countP (fun e => decide (e.Kind = .ReturnEvent))

/-- The balance kept by the loop while no Call is doubled and no Complete is
orphaned: every Call event has its Return event or its map entry. -/
def Balanced {V : Type} (s : ReplayState V) : Prop :=
  (keys s.procID).Nodup ∧ numCallEvents s.events = numReturnEvents s.events + s.procID.length

/-- The ids of the Call events of an event sequence, in order. -/
def callIds {V : Type} (events : List (Event V)) : List Nat :=
  (events.filter (fun e => decide (e.Kind = .CallEvent))).map (fun e => e.Id)

/-- The counter and the Call ids after some records: the counter is the number
of Call events so far (as a `uint`), and the k-th Call event has id `k` (as a
`uint`). -/
def CounterInv {V : Type} (s : ReplayState V) : Prop :=
  s.id = numCallEvents s.events % uintSize ∧
  callIds s.events = (List.range (numCallEvents s.events)).map (fun k => k % uintSize)

/-- Every Return event of the sequence has a Call event with the same id at an
earlier position. -/
def ReturnsPreceded {V : Type} (events : List (Event V)) : Prop :=
  ∀ (j : Nat) (e : Event V), events[j]? = some e → e.Kind = .ReturnEvent →
    ∃ (i : Nat) (c : Event V), i < j ∧ events[i]? = some c ∧ c.Kind = .CallEvent ∧ c.Id = e.Id

/-- Every id stored in the map is the id of a Call event already emitted. -/
def MapFromCalls {V : Type} (s : ReplayState V) : Prop :=
  ∀ e ∈ s.procID, ∃ c ∈ s.events, c.Kind = .CallEvent ∧ c.Id = e.2

/-- The kind and value of the event a record gives rise to when it is read:
none for an unresolved Complete record. -/
def recEvent? {V : Type} : Rec V → Option (EventKind × Option V)
  | .call _ value => some (.CallEvent, value)
  | .resolved _ v => some (.ReturnEvent, some v)
  | .unresolved _ => none

/-- The kind and value of an event. -/
def eventShape {V : Type} (e : Event V) : EventKind × Option V :=
  (e.Kind, e.Value)

/-- Every Invoke record is later followed by a resolved Complete record of the
same proc. -/
def allCallsAnswered {V : Type} : List (Rec V) → Bool
  | [] => true
  | r :: rs =>
    (match r with
      | .call proc _ => rs.any (isResolvedOf proc)
      | _ => true) && allCallsAnswered rs

/-- The error with which one loop iteration returns on `line`, if it does: the
error of `json.Unmarshal`, or of `OnRequest` on an Invoke record, or of
`OnResponse` on a Complete record. -/
def lineError {E A V : Type} (json : JsonCodec E A) (p : RecordParser E V)
    (line : Bytes) : Option E :=
  match json.Unmarshal line with
  | .error err => some err
  | .ok op =>
    if op.Action = InvokeOperation then
      match p.OnRequest op.Data with
      | .error err => some err
      | .ok _ => none
    else
      match p.OnResponse op.Data with
      | .error err => some err
      | .ok _ => none

/-- The error of the first bad line in file order, if there is one. -/
def firstError {E A V : Type} (json : JsonCodec E A) (p : RecordParser E V) :
    List Bytes → Option E
  | [] => none
  | line :: rest =>
    match lineError json p line with
    | some err => some err
    | none => firstError json p rest

/-- One call of the recorder's interface. -/
inductive RecorderCall (A : Type) where
  | request (proc : Int) (op : A)
  | response (proc : Int) (op : A)

/-- Performing one call of the recorder's interface. -/
def applyCall {E A : Type} (json : JsonCodec E A) (r : Recorder) (c : RecorderCall A)
    (w1 w2 : WriteOutcome E) : Recorder × Option E :=
  match c with
  | .request proc op => RecordRequest json r proc op w1 w2
  | .response proc op => RecordResponse json r proc op w1 w2

/-- A sequence of calls, each with the outcomes of its two writes: the file
after the last call when every call returns a nil error, `none` as soon as one
call returns an error. -/
def runCalls {E A : Type} (json : JsonCodec E A) :
    Recorder → List (RecorderCall A × WriteOutcome E × WriteOutcome E) → Option Recorder
  | r, [] => some r
  | r, (c, w1, w2) :: cs =>
    match applyCall json r c w1 w2 with
    | (r1, none) => runCalls json r1 cs
    | (_, some _) => none

/-- The kind and value of the event expected for a recorded call. -/
def callShape {A : Type} : RecorderCall A → EventKind × Option A
  | .request _ op => (.CallEvent, some op)
  | .response _ op => (.ReturnEvent, some op)

/-- The parser inverts the payload encoding on the value of a recorded call:
decoding the serialization gives the value back, resolved. -/
def ParserInverts {E A : Type} (json : JsonCodec E A) (p : RecordParser E A) :
    RecorderCall A → Prop
  | .request _ op => ∀ data, json.MarshalValue op = .ok data → p.OnRequest data = .ok (some op)
  | .response _ op => ∀ data, json.MarshalValue op = .ok data → p.OnResponse data = .ok (some op)

/-- The line that a recorded call writes is shorter than the scanner's buffer. -/
def FitsToken {E A : Type} (json : JsonCodec E A) : RecorderCall A → Prop
  | .request proc op => ∀ data line, json.MarshalValue op = .ok data →
      json.MarshalOperation { Action := InvokeOperation, Proc := proc, Data := data } = .ok line →
      line.length < MaxScanTokenSize
  | .response proc op => ∀ data line, json.MarshalValue op = .ok data →
      json.MarshalOperation { Action := ReturnOperation, Proc := proc, Data := data } = .ok line →
      line.length < MaxScanTokenSize

/-- The facts about `encoding/json` that the round trip rests on: a record
whose payload was produced by `json.Marshal` is written as one line without a
newline byte and without a trailing carriage return, and `json.Unmarshal` reads
that line back to the same record. -/
def JsonFaithful {E A : Type} (json : JsonCodec E A) : Prop :=
  ∀ (a : A) (data : Bytes) (action : String) (proc : Int) (line : Bytes),
    json.MarshalValue a = .ok data →
    json.MarshalOperation { Action := action, Proc := proc, Data := data } = .ok line →
    json.Unmarshal line = .ok { Action := action, Proc := proc, Data := data } ∧
      10 ∉ line ∧ dropCR line = line

/-- The file content made of the given lines, each followed by a newline. -/
def unlines : List Bytes → Bytes
  | [] => []
  | l :: ls => l ++ 10 :: unlines ls

/-- The ids stored in the map. -/
def mapIds (m : List (Int × Nat)) : List Nat :=
  m.map Prod.snd

/-- The ids of the Return events of an event sequence, in order. -/
def returnIds {V : Type} (events : List (Event V)) : List Nat :=
  (events.filter (fun e => decide (e.Kind = .ReturnEvent))).map (fun e => e.Id)

/-- Every id stored in the map is below the number of Call events emitted so
far, and no two entries hold the same id. -/
def PendingInv {V : Type} (s : ReplayState V) : Prop :=
  (∀ e ∈ s.procID, e.2 < numCallEvents s.events) ∧ (mapIds s.procID).Nodup

/-- Whether the record is an Invoke record. -/
def isInvoke {V : Type} : Rec V → Bool
  | .call _ _ => true
  | _ => false

/-- The number of Invoke records. -/
def numInvoke {V : Type} (recs : List (Rec V)) : Nat :=
  recs.countP isInvoke

/-- While no Call is doubled and no Complete is orphaned, the ids of the Return
events emitted so far together with the ids still stored in the map are, up to
order, the ids `0, ..., n - 1` of the `n` Call events emitted so far. -/
def ReturnInv {V : Type} (s : ReplayState V) : Prop :=
  (returnIds s.events ++ mapIds s.procID).Perm (List.range (numCallEvents s.events))

/-! # Theorems -/

/-! ## Basic facts: the loop in terms of decoded records -/

theorem replayStep_eq_classify {E A V : Type} (json : JsonCodec E A) (p : RecordParser E V)
    (s : ReplayState V) (line : Bytes) :
    replayStep json p s line =
      match classify json p line with
      | .error err => .error err
      | .ok r => .ok (applyRec s r) := by
  unfold replayStep classify
  cases json.Unmarshal line with
  | error err => rfl
  | ok op =>
    by_cases h : op.Action = InvokeOperation
    · simp only [h, if_true]
      cases p.OnRequest op.Data with
      | error err => rfl
      | ok value => rfl
    · simp only [h, if_false]
      cases p.OnResponse op.Data with
      | error err => rfl
      | ok value =>
        cases value with
        | none => rfl
        | some v => rfl

theorem replayLoop_eq_decodeAll {E A V : Type} (json : JsonCodec E A) (p : RecordParser E V)
    (lines : List Bytes) (s : ReplayState V) :
    replayLoop json p s lines =
      match decodeAll json p lines with
      | .error err => .error err
      | .ok rs => .ok (runRecs s rs) := by
  induction lines generalizing s with
  | nil => rfl
  | cons line rest ih =>
    simp only [replayLoop, decodeAll, replayStep_eq_classify]
    cases classify json p line with
    | error err => rfl
    | ok r =>
      simp only [ih]
      cases decodeAll json p rest with
      | error err => rfl
      | ok rs => rfl

theorem replayLoop_of_decodeAll {E A V : Type} {json : JsonCodec E A} {p : RecordParser E V}
    {lines : List Bytes} {recs : List (Rec V)} (h : decodeAll json p lines = .ok recs)
    (s : ReplayState V) : replayLoop json p s lines = .ok (runRecs s recs) := by
  rw [replayLoop_eq_decodeAll, h]

theorem replayEvents_of_decodeAll {E A V : Type} {json : JsonCodec E A} {p : RecordParser E V}
    {sr : ScanResult E} {recs : List (Rec V)} (h : decodeAll json p sr.tokens = .ok recs)
    (herr : sr.err = none) (rangeOrder : List (Int × Nat) → List (Int × Nat)) :
    replayEvents json p rangeOrder sr =
      .ok ((runRecs (initState V) recs).events ++
        (synthesized p (rangeOrder (runRecs (initState V) recs).procID)).map Prod.snd) := by
  unfold replayEvents
  rw [replayLoop_of_decodeAll h, herr]

theorem replayEvents_ok_inv {E A V : Type} {json : JsonCodec E A} {p : RecordParser E V}
    {sr : ScanResult E} {rangeOrder : List (Int × Nat) → List (Int × Nat)}
    {events : List (Event V)} (h : replayEvents json p rangeOrder sr = .ok events) :
    ∃ recs, decodeAll json p sr.tokens = .ok recs ∧ sr.err = none ∧
      events = (runRecs (initState V) recs).events ++
        (synthesized p (rangeOrder (runRecs (initState V) recs).procID)).map Prod.snd := by
  unfold replayEvents at h
  rw [replayLoop_eq_decodeAll] at h
  cases hd : decodeAll json p sr.tokens with
  | error err => rw [hd] at h; cases h
  | ok recs =>
    rw [hd] at h
    cases he : sr.err with
    | some err => rw [he] at h; cases h
    | none =>
      rw [he] at h
      refine ⟨recs, rfl, rfl, ?_⟩
      cases h
      rfl

theorem runRecs_nil {V : Type} (s : ReplayState V) : runRecs s [] = s := rfl

theorem runRecs_cons {V : Type} (s : ReplayState V) (r : Rec V) (rs : List (Rec V)) :
    runRecs s (r :: rs) = runRecs (applyRec s r) rs := rfl

theorem runRecs_append {V : Type} (s : ReplayState V) (xs ys : List (Rec V)) :
    runRecs s (xs ++ ys) = runRecs (runRecs s xs) ys := by
  simp [runRecs, List.foldl_append]

/-! ## The pending map, proc by proc -/

theorem entriesOf_mapDelete_self (P : Int) (m : List (Int × Nat)) :
    entriesOf P (mapDelete m P) = [] := by
  unfold entriesOf mapDelete
  rw [List.filter_filter, List.filter_eq_nil_iff]
  intro a _
  by_cases h : a.1 = P <;> simp [h]

theorem entriesOf_mapDelete_ne {P Q : Int} (h : Q ≠ P) (m : List (Int × Nat)) :
    entriesOf P (mapDelete m Q) = entriesOf P m := by
  unfold entriesOf mapDelete
  rw [List.filter_filter]
  apply List.filter_congr
  intro a _
  by_cases ha : a.1 = P
  · have : a.1 ≠ Q := fun hq => h (hq ▸ ha)
    simp [ha, this]
    rw [← ha]; exact this
  · simp [ha]

theorem entriesOf_mapStore_self (P : Int) (m : List (Int × Nat)) (v : Nat) :
    entriesOf P (mapStore m P v) = [(P, v)] := by
  have h := entriesOf_mapDelete_self P m
  unfold entriesOf at h ⊢
  unfold mapStore
  rw [List.filter_cons]
  simp [h]

theorem entriesOf_mapStore_ne {P Q : Int} (h : Q ≠ P) (m : List (Int × Nat)) (v : Nat) :
    entriesOf P (mapStore m Q v) = entriesOf P m := by
  have h2 := entriesOf_mapDelete_ne h m
  unfold entriesOf at h2 ⊢
  unfold mapStore
  rw [List.filter_cons]
  simp [h, h2]

theorem entriesOf_applyRec_frame {V : Type} (P : Int) (s : ReplayState V) (r : Rec V)
    (hc : isCallOf P r = false) (hr : isResolvedOf P r = false) :
    entriesOf P (applyRec s r).procID = entriesOf P s.procID := by
  cases r with
  | call proc value =>
    have : proc ≠ P := by simpa [isCallOf] using hc
    exact entriesOf_mapStore_ne this _ _
  | resolved proc v =>
    have : proc ≠ P := by simpa [isResolvedOf] using hr
    exact entriesOf_mapDelete_ne this _
  | unresolved proc => rfl

theorem entriesOf_runRecs_frame {V : Type} (P : Int) (recs : List (Rec V))
    (s : ReplayState V)
    (hc : ∀ r ∈ recs, isCallOf P r = false) (hr : ∀ r ∈ recs, isResolvedOf P r = false) :
    entriesOf P (runRecs s recs).procID = entriesOf P s.procID := by
  induction recs generalizing s with
  | nil => rfl
  | cons r rs ih =>
    rw [runRecs_cons, ih _ (fun x hx => hc x (List.mem_cons_of_mem _ hx))
      (fun x hx => hr x (List.mem_cons_of_mem _ hx))]
    exact entriesOf_applyRec_frame P s r (hc r (List.mem_cons_self _ _))
      (hr r (List.mem_cons_self _ _))

theorem entriesOf_perm_singleton {P : Int} {m o : List (Int × Nat)} {e : Int × Nat}
    (hperm : o.Perm m) (h : entriesOf P m = [e]) : entriesOf P o = [e] := by
  have h1 : (entriesOf P o).Perm (entriesOf P m) := List.Perm.filter _ hperm
  rw [h] at h1
  exact List.perm_singleton.mp h1

theorem synthesized_filter {E V : Type} (p : RecordParser E V) (P : Int)
    (entries : List (Int × Nat)) :
    (synthesized p entries).filter (fun e => decide (e.1 = P)) =
      synthesized p (entriesOf P entries) := by
  unfold synthesized entriesOf
  rw [List.filter_map]
  rfl

/-- Splitting a list at the last element that satisfies `q`. -/
theorem exists_last_split {α : Type} (q : α → Bool) (l : List α) (h : ∃ x ∈ l, q x = true) :
    ∃ a x b, l = a ++ x :: b ∧ q x = true ∧ ∀ y ∈ b, q y = false := by
  induction l with
  | nil => obtain ⟨x, hx, _⟩ := h; cases hx
  | cons hd tl ih =>
    by_cases ht : ∃ x ∈ tl, q x = true
    · obtain ⟨a, x, b, hab, hq, hb⟩ := ih ht
      exact ⟨hd :: a, x, b, by rw [hab]; rfl, hq, hb⟩
    · obtain ⟨x, hx, hqx⟩ := h
      have hhd : q hd = true := by
        rcases List.mem_cons.mp hx with rfl | hx2
        · exact hqx
        · exact absurd ⟨x, hx2, hqx⟩ ht
      refine ⟨[], hd, tl, rfl, hhd, ?_⟩
      intro y hy
      cases hqy : q y with
      | false => rfl
      | true => exact absurd ⟨y, hy, hqy⟩ ht

theorem events_runRecs_prefix {V : Type} (recs : List (Rec V)) (s : ReplayState V) :
    ∃ t, (runRecs s recs).events = s.events ++ t := by
  induction recs generalizing s with
  | nil => exact ⟨[], by simp [runRecs_nil]⟩
  | cons r rs ih =>
    obtain ⟨t, ht⟩ := ih (applyRec s r)
    rw [runRecs_cons, ht]
    cases r with
    | call proc value =>
      exact ⟨{ Kind := .CallEvent, Id := s.id, Value := value } :: t, by simp [applyRec]⟩
    | resolved proc v =>
      exact ⟨{ Kind := .ReturnEvent, Id := mapLookup s.procID proc, Value := some v } :: t,
        by simp [applyRec]⟩
    | unresolved proc => exact ⟨t, rfl⟩

theorem eventShape_runRecs {V : Type} (recs : List (Rec V)) (s : ReplayState V) :
    (runRecs s recs).events.map eventShape =
      s.events.map eventShape ++ recs.filterMap recEvent? := by
  induction recs generalizing s with
  | nil => simp [runRecs_nil]
  | cons r rs ih =>
    rw [runRecs_cons, ih]
    cases r <;> simp [applyRec, recEvent?, eventShape]

theorem length_events_runRecs_init {V : Type} (recs : List (Rec V)) :
    (runRecs (initState V) recs).events.length = (recs.filterMap recEvent?).length := by
  have h := congrArg List.length (eventShape_runRecs recs (initState V))
  simpa [initState] using h

/-! ## C1: synthesis completeness -/

theorem getElem?_events_call {V : Type} (pre post : List (Rec V)) (P : Int) (v : Option V)
    (tail : List (Event V)) :
    ((runRecs (initState V) (pre ++ Rec.call P v :: post)).events ++ tail)[
        (runRecs (initState V) pre).events.length]? =
      some { Kind := .CallEvent, Id := (runRecs (initState V) pre).id, Value := v } := by
  rw [runRecs_append, runRecs_cons]
  obtain ⟨t, ht⟩ := events_runRecs_prefix post (applyRec (runRecs (initState V) pre) (Rec.call P v))
  rw [ht]
  simp only [applyRec, List.append_assoc]
  rw [List.getElem?_append_right (le_refl _)]
  simp

theorem entriesOf_after_last_call {V : Type} (pre post : List (Rec V)) (P : Int)
    (v : Option V) (hc : ∀ r ∈ post, isCallOf P r = false)
    (hr : ∀ r ∈ post, isResolvedOf P r = false) :
    entriesOf P (runRecs (initState V) (pre ++ Rec.call P v :: post)).procID =
      [(P, (runRecs (initState V) pre).id)] := by
  rw [runRecs_append, runRecs_cons, entriesOf_runRecs_frame P post _ hc hr]
  exact entriesOf_mapStore_self P _ _

/-- C1, as stated, fails: in the log `[call proc1 "a", call proc1 "b"]` the first
Invoke record of proc1 has no resolved Complete record after it and its Call
event has id `0`, but the only synthesized event for proc1 is `Return(1, noop)`:
the second Invoke record overwrote the pending id, and no Return with id `0` is
emitted. -/
theorem synthesis_completeness_counterexample :
    decodeAll toyJson toyParser [[1, 1, 97], [1, 1, 98]] =
      .ok ([] ++ Rec.call 1 (some [97]) :: [Rec.call 1 (some [98])]) ∧
    (∀ r ∈ [Rec.call 1 (some ([98] : Bytes))], isResolvedOf 1 r = false) ∧
    replayEvents toyJson toyParser id ⟨[[1, 1, 97], [1, 1, 98]], none⟩ =
      .ok [⟨.CallEvent, 0, some [97]⟩, ⟨.CallEvent, 1, some [98]⟩,
           ⟨.ReturnEvent, 1, some [255]⟩] ∧
    (synthesized toyParser (id (runRecs (initState Bytes)
        [Rec.call 1 (some [97]), Rec.call 1 (some [98])]).procID)).filter
        (fun e => decide (e.1 = 1)) =
      [(1, { Kind := .ReturnEvent, Id := 1, Value := toyParser.OnNoopResponse })] ∧
    (⟨.ReturnEvent, 0, toyParser.OnNoopResponse⟩ : Event Bytes) ∉
      ([⟨.CallEvent, 0, some [97]⟩, ⟨.CallEvent, 1, some [98]⟩,
        ⟨.ReturnEvent, 1, some [255]⟩] : List (Event Bytes)) :=
  ⟨rfl, by decide, rfl, rfl, by decide⟩

/-- C1 (synthesis completeness, amended). On a log whose replay succeeds, let the
proc `P` have an Invoke record that neither a resolved Complete record nor a
further Invoke record of `P` follows. Then the Call event emitted for that
record carries the value of the id counter at that moment, and the end-of-log
loop emits exactly one event for `P`: a Return with that id and the value
`OnNoopResponse()`, placed after the events read from the file. -/
theorem synthesis_completeness {E A V : Type} (json : JsonCodec E A) (p : RecordParser E V)
    (rangeOrder : List (Int × Nat) → List (Int × Nat)) (sr : ScanResult E)
    (events : List (Event V)) (recs pre post : List (Rec V)) (P : Int) (v : Option V)
    (hperm : ∀ m, (rangeOrder m).Perm m)
    (hok : replayEvents json p rangeOrder sr = .ok events)
    (hdec : decodeAll json p sr.tokens = .ok recs)
    (hsplit : recs = pre ++ Rec.call P v :: post)
    (hnone : ∀ r ∈ post, isResolvedOf P r = false)
    (hnocall : ∀ r ∈ post, isCallOf P r = false) :
    events[(pre.filterMap recEvent?).length]? =
      some { Kind := .CallEvent, Id := (runRecs (initState V) pre).id, Value := v } ∧
    events = (runRecs (initState V) recs).events ++
      (synthesized p (rangeOrder (runRecs (initState V) recs).procID)).map Prod.snd ∧
    (synthesized p (rangeOrder (runRecs (initState V) recs).procID)).filter
        (fun e => decide (e.1 = P)) =
      [(P, { Kind := .ReturnEvent, Id := (runRecs (initState V) pre).id,
             Value := p.OnNoopResponse })] := by
  obtain ⟨recs2, hdec2, _, hev⟩ := replayEvents_ok_inv hok
  rw [hdec] at hdec2
  cases hdec2
  refine ⟨?_, hev, ?_⟩
  · have h1 := getElem?_events_call pre post P v
      ((synthesized p (rangeOrder (runRecs (initState V) recs).procID)).map Prod.snd)
    rw [← hsplit, ← hev, length_events_runRecs_init] at h1
    exact h1
  · rw [synthesized_filter]
    have h1 := entriesOf_after_last_call pre post P v hnocall hnone
    rw [← hsplit] at h1
    rw [entriesOf_perm_singleton (hperm _) h1]
    rfl

/-- Scenario B: the log `[call proc1 "foo"]` replays to `Call(0, foo)` followed
by the synthesized `Return(0, OnNoopResponse())`. -/
theorem synthesis_completeness_witness :
    replayEvents toyJson toyParser id ⟨[[1, 1, 102, 111, 111]], none⟩ =
      .ok [⟨.CallEvent, 0, some [102, 111, 111]⟩, ⟨.ReturnEvent, 0, some [255]⟩] ∧
    ([⟨.CallEvent, 0, some [102, 111, 111]⟩, ⟨.ReturnEvent, 0, some [255]⟩] :
        List (Event Bytes))[(([] : List (Rec Bytes)).filterMap recEvent?).length]? =
      some { Kind := .CallEvent, Id := (runRecs (initState Bytes) []).id,
             Value := some [102, 111, 111] } ∧
    ([⟨.CallEvent, 0, some [102, 111, 111]⟩, ⟨.ReturnEvent, 0, some [255]⟩] :
        List (Event Bytes)) =
      (runRecs (initState Bytes) [Rec.call 1 (some [102, 111, 111])]).events ++
        (synthesized toyParser (id (runRecs (initState Bytes)
          [Rec.call 1 (some [102, 111, 111])]).procID)).map Prod.snd ∧
    (synthesized toyParser (id (runRecs (initState Bytes)
          [Rec.call 1 (some [102, 111, 111])]).procID)).filter
        (fun e => decide (e.1 = 1)) =
      [(1, { Kind := .ReturnEvent, Id := (runRecs (initState Bytes) []).id,
             Value := toyParser.OnNoopResponse })] :=
  ⟨rfl, synthesis_completeness toyJson toyParser id ⟨[[1, 1, 102, 111, 111]], none⟩
    [⟨.CallEvent, 0, some [102, 111, 111]⟩, ⟨.ReturnEvent, 0, some [255]⟩]
    [Rec.call 1 (some [102, 111, 111])] [] [] 1 (some [102, 111, 111])
    (fun m => List.Perm.refl m) rfl rfl rfl (fun r hr => (by cases hr))
    (fun r hr => (by cases hr))⟩

/-! ## C2: Call/Return balance -/

theorem keys_mapDelete (m : List (Int × Nat)) (k : Int) :
    keys (mapDelete m k) = (keys m).filter (fun x => decide (x ≠ k)) := by
  unfold keys mapDelete
  rw [List.filter_map]
  rfl

theorem keys_applyRec {V : Type} (s : ReplayState V) (r : Rec V) :
    keys (applyRec s r).procID = pendingAfter (keys s.procID) r := by
  cases r with
  | call proc value =>
    show proc :: keys (mapDelete s.procID proc) = _
    rw [keys_mapDelete]; rfl
  | resolved proc v => exact keys_mapDelete _ _
  | unresolved proc => rfl

theorem nodup_keys_mapDelete {m : List (Int × Nat)} (h : (keys m).Nodup) (k : Int) :
    (keys (mapDelete m k)).Nodup := by
  rw [keys_mapDelete]
  exact h.filter _

theorem nodup_keys_applyRec {V : Type} (s : ReplayState V) (r : Rec V)
    (h : (keys s.procID).Nodup) : (keys (applyRec s r).procID).Nodup := by
  cases r with
  | call proc value =>
    show (proc :: keys (mapDelete s.procID proc)).Nodup
    refine List.nodup_cons.mpr ⟨?_, nodup_keys_mapDelete h proc⟩
    rw [keys_mapDelete]
    simp
  | resolved proc v => exact nodup_keys_mapDelete h proc
  | unresolved proc => exact h

theorem nodup_keys_runRecs {V : Type} (recs : List (Rec V)) (s : ReplayState V)
    (h : (keys s.procID).Nodup) : (keys (runRecs s recs).procID).Nodup := by
  induction recs generalizing s with
  | nil => exact h
  | cons r rs ih => exact ih _ (nodup_keys_applyRec s r h)

theorem length_mapDelete_of_not_mem {m : List (Int × Nat)} {k : Int} (h : k ∉ keys m) :
    (mapDelete m k).length = m.length := by
  unfold mapDelete
  rw [List.filter_eq_self.mpr]
  intro e he
  have : e.1 ≠ k := fun hk => h (hk ▸ List.mem_map_of_mem Prod.fst he)
  simpa using this

theorem length_mapDelete_of_mem {m : List (Int × Nat)} {k : Int} (hn : (keys m).Nodup)
    (h : k ∈ keys m) : (mapDelete m k).length + 1 = m.length := by
  have h1 : (keys (mapDelete m k)).length = (mapDelete m k).length := by simp [keys]
  have h2 : (keys m).length = m.length := by simp [keys]
  rw [← h1, ← h2, keys_mapDelete]
  have h3 := List.length_eq_countP_add_countP (fun x => decide (x ≠ k)) (keys m)
  have h4 : List.countP (fun a => decide ¬(decide (a ≠ k)) = true) (keys m) =
      List.count k (keys m) := by
    unfold List.count
    apply List.countP_congr
    intro x _
    by_cases hx : x = k <;> simp [hx]
  rw [h4, List.count_eq_one_of_mem hn h, List.countP_eq_length_filter] at h3
  omega

theorem balanced_runRecs {V : Type} (recs : List (Rec V)) (s : ReplayState V)
    (hb : Balanced s) (ho : noOrphan (keys s.procID) recs = true)
    (hd : noDoubleCall (keys s.procID) recs = true) : Balanced (runRecs s recs) := by
  induction recs generalizing s with
  | nil => exact hb
  | cons r rs ih =>
    have ho2 : noOrphan (pendingAfter (keys s.procID) r) rs = true := by
      cases r <;> simp only [noOrphan, Bool.and_eq_true] at ho <;> exact ho.2
    have hd2 : noDoubleCall (pendingAfter (keys s.procID) r) rs = true := by
      cases r <;> simp only [noDoubleCall, Bool.and_eq_true] at hd <;> exact hd.2
    rw [runRecs_cons]
    refine ih _ ⟨nodup_keys_applyRec s r hb.1, ?_⟩ (by rw [keys_applyRec]; exact ho2)
      (by rw [keys_applyRec]; exact hd2)
    have hbal := hb.2
    cases r with
    | call proc value =>
      simp only [noDoubleCall, Bool.and_eq_true, decide_eq_true_eq] at hd
      have hl := length_mapDelete_of_not_mem hd.1
      simp only [applyRec, mapStore, numCallEvents, numReturnEvents, List.countP_append,
        List.length_cons] at hbal ⊢
      simp [hl]
      omega
    | resolved proc v =>
      simp only [noOrphan, Bool.and_eq_true, decide_eq_true_eq] at ho
      have hl := length_mapDelete_of_mem hb.1 ho.1
      simp only [applyRec, numCallEvents, numReturnEvents, List.countP_append] at hbal ⊢
      simp
      omega
    | unresolved proc => exact hbal

theorem numCallEvents_synthesized {E V : Type} (p : RecordParser E V)
    (entries : List (Int × Nat)) :
    numCallEvents ((synthesized p entries).map Prod.snd) = 0 := by
  unfold numCallEvents synthesized
  rw [List.countP_eq_zero]
  intro e he
  simp only [List.map_map, List.mem_map, Function.comp] at he
  obtain ⟨a, _, rfl⟩ := he
  simp

theorem numReturnEvents_synthesized {E V : Type} (p : RecordParser E V)
    (entries : List (Int × Nat)) :
    numReturnEvents ((synthesized p entries).map Prod.snd) = entries.length := by
  unfold numReturnEvents synthesized
  rw [List.countP_eq_length.mpr]
  · simp
  · intro e he
    simp only [List.map_map, List.mem_map, Function.comp] at he
    obtain ⟨a, _, rfl⟩ := he
    simp

/-- C2, as stated, fails: the log `[call proc1 "a", call proc1 "b"]` has no
orphaned Complete, its replay succeeds, and it yields two Call events and one
Return event. -/
theorem call_return_balance_counterexample :
    decodeAll toyJson toyParser [[1, 1, 97], [1, 1, 98]] =
      .ok [Rec.call 1 (some [97]), Rec.call 1 (some [98])] ∧
    noOrphan [] [Rec.call 1 (some [97]), Rec.call 1 (some [98])] = true ∧
    replayEvents toyJson toyParser id ⟨[[1, 1, 97], [1, 1, 98]], none⟩ =
      .ok [⟨.CallEvent, 0, some [97]⟩, ⟨.CallEvent, 1, some [98]⟩,
           ⟨.ReturnEvent, 1, some [255]⟩] ∧
    numReturnEvents ([⟨.CallEvent, 0, some [97]⟩, ⟨.CallEvent, 1, some [98]⟩,
           ⟨.ReturnEvent, 1, some [255]⟩] : List (Event Bytes)) ≠
      numCallEvents ([⟨.CallEvent, 0, some [97]⟩, ⟨.CallEvent, 1, some [98]⟩,
           ⟨.ReturnEvent, 1, some [255]⟩] : List (Event Bytes)) :=
  ⟨rfl, rfl, rfl, by decide⟩

/-- C2 (Call/Return balance, amended). On a log with no orphaned Complete and no
Invoke record for a proc that already has a pending Call, a successful replay
emits as many Return events, synthesized ones included, as Call events. -/
theorem call_return_balance {E A V : Type} (json : JsonCodec E A) (p : RecordParser E V)
    (rangeOrder : List (Int × Nat) → List (Int × Nat)) (sr : ScanResult E)
    (events : List (Event V)) (recs : List (Rec V))
    (hperm : ∀ m, (rangeOrder m).Perm m)
    (hok : replayEvents json p rangeOrder sr = .ok events)
    (hdec : decodeAll json p sr.tokens = .ok recs)
    (horphan : noOrphan [] recs = true)
    (hdouble : noDoubleCall [] recs = true) :
    numReturnEvents events = numCallEvents events := by
  obtain ⟨recs2, hdec2, _, hev⟩ := replayEvents_ok_inv hok
  rw [hdec] at hdec2
  cases hdec2
  have hb : Balanced (runRecs (initState V) recs) :=
    balanced_runRecs recs (initState V) ⟨List.nodup_nil, rfl⟩ horphan hdouble
  have h1 : numCallEvents events = numCallEvents (runRecs (initState V) recs).events := by
    rw [hev]
    unfold numCallEvents
    rw [List.countP_append]
    have := numCallEvents_synthesized p (rangeOrder (runRecs (initState V) recs).procID)
    unfold numCallEvents at this
    rw [this]; rfl
  have h2 : numReturnEvents events =
      numReturnEvents (runRecs (initState V) recs).events +
        (runRecs (initState V) recs).procID.length := by
    rw [hev]
    unfold numReturnEvents
    rw [List.countP_append]
    have := numReturnEvents_synthesized p (rangeOrder (runRecs (initState V) recs).procID)
    unfold numReturnEvents at this
    rw [this, (hperm _).length_eq]
  rw [h1, h2, hb.2]

/-- Scenario A meets the hypotheses of the amended C2 and has two events of
each kind. -/
theorem call_return_balance_witness :
    numReturnEvents ([⟨.CallEvent, 0, some [102]⟩, ⟨.CallEvent, 1, some [98]⟩,
        ⟨.ReturnEvent, 0, some [103]⟩, ⟨.ReturnEvent, 1, some [99]⟩] : List (Event Bytes)) =
      numCallEvents ([⟨.CallEvent, 0, some [102]⟩, ⟨.CallEvent, 1, some [98]⟩,
        ⟨.ReturnEvent, 0, some [103]⟩, ⟨.ReturnEvent, 1, some [99]⟩] : List (Event Bytes)) :=
  call_return_balance toyJson toyParser id
    ⟨[[1, 1, 102], [1, 2, 98], [2, 1, 103], [2, 2, 99]], none⟩ _
    [Rec.call 1 (some [102]), Rec.call 2 (some [98]), Rec.resolved 1 [103],
      Rec.resolved 2 [99]]
    (fun m => List.Perm.refl m) rfl rfl rfl rfl

/-! ## C3: Call ids count up from 0 -/

theorem counterInv_applyRec {V : Type} (s : ReplayState V) (r : Rec V) (h : CounterInv s) :
    CounterInv (applyRec s r) := by
  obtain ⟨h1, h2⟩ := h
  cases r with
  | call proc value =>
    unfold CounterInv callIds numCallEvents at *
    simp only [applyRec, List.countP_append, List.filter_append, List.map_append]
    have hc : List.countP (fun e : Event V => decide (e.Kind = .CallEvent))
        [{ Kind := .CallEvent, Id := s.id, Value := value }] = 1 := by simp
    have hf : List.filter (fun e : Event V => decide (e.Kind = .CallEvent))
        [{ Kind := .CallEvent, Id := s.id, Value := value }] =
        [{ Kind := .CallEvent, Id := s.id, Value := value }] := by simp
    rw [hc, hf, List.range_succ, List.map_append, h2]
    refine ⟨?_, ?_⟩
    · rw [h1, Nat.add_mod, Nat.mod_mod, ← Nat.add_mod]
    · simp [h1]
  | resolved proc v =>
    unfold CounterInv callIds numCallEvents at *
    simp only [applyRec, List.countP_append, List.filter_append, List.map_append]
    have hc : List.countP (fun e : Event V => decide (e.Kind = .CallEvent))
        [{ Kind := .ReturnEvent, Id := mapLookup s.procID proc, Value := some v }] = 0 := by
      simp
    have hf : List.filter (fun e : Event V => decide (e.Kind = .CallEvent))
        [{ Kind := .ReturnEvent, Id := mapLookup s.procID proc, Value := some v }] = [] := by
      simp
    rw [hc, hf]
    exact ⟨h1, by simpa using h2⟩
  | unresolved proc => exact ⟨h1, h2⟩

theorem counterInv_runRecs {V : Type} (recs : List (Rec V)) (s : ReplayState V)
    (h : CounterInv s) : CounterInv (runRecs s recs) := by
  induction recs generalizing s with
  | nil => exact h
  | cons r rs ih => exact ih _ (counterInv_applyRec s r h)

theorem counterInv_init (V : Type) : CounterInv (initState V) := ⟨rfl, rfl⟩

theorem callIds_append_synthesized {E V : Type} (p : RecordParser E V)
    (evs : List (Event V)) (entries : List (Int × Nat)) :
    callIds (evs ++ (synthesized p entries).map Prod.snd) = callIds evs := by
  unfold callIds
  rw [List.filter_append]
  have : List.filter (fun e : Event V => decide (e.Kind = .CallEvent))
      ((synthesized p entries).map Prod.snd) = [] := by
    rw [List.filter_eq_nil_iff]
    intro e he
    simp only [synthesized, List.map_map, List.mem_map, Function.comp] at he
    obtain ⟨a, _, rfl⟩ := he
    simp
  rw [this, List.append_nil]

theorem numCallEvents_append_synthesized {E V : Type} (p : RecordParser E V)
    (evs : List (Event V)) (entries : List (Int × Nat)) :
    numCallEvents (evs ++ (synthesized p entries).map Prod.snd) = numCallEvents evs := by
  have h := numCallEvents_synthesized p entries
  unfold numCallEvents at h ⊢
  rw [List.countP_append, h]
  rfl

/-- C3 (monotonic, never-reused Call ids). On a log whose replay succeeds and
emits at most `2 ^ 64` Call events (the `uint` counter has not wrapped), the
k-th Call event has id `k`: the Call ids are `0, 1, ..., n - 1` in order, so
they strictly increase and none is repeated. -/
theorem call_ids_count_up {E A V : Type} (json : JsonCodec E A) (p : RecordParser E V)
    (rangeOrder : List (Int × Nat) → List (Int × Nat)) (sr : ScanResult E)
    (events : List (Event V))
    (hok : replayEvents json p rangeOrder sr = .ok events)
    (hsize : numCallEvents events ≤ uintSize) :
    callIds events = List.range (numCallEvents events) ∧
    (callIds events).Pairwise (fun a b => a < b) ∧
    (callIds events).Nodup := by
  obtain ⟨recs, _, _, hev⟩ := replayEvents_ok_inv hok
  have hinv := counterInv_runRecs recs (initState V) (counterInv_init V)
  have h1 : callIds events = List.range (numCallEvents events) := by
    have hn : numCallEvents events = numCallEvents (runRecs (initState V) recs).events := by
      rw [hev, numCallEvents_append_synthesized]
    rw [hev, callIds_append_synthesized, ← hev, hn, hinv.2]
    rw [hn] at hsize
    conv_rhs => rw [← List.map_id (List.range _)]
    apply List.map_congr_left
    intro k hk
    have : k < uintSize := lt_of_lt_of_le (List.mem_range.mp hk) hsize
    simp [Nat.mod_eq_of_lt this]
  rw [h1]
  exact ⟨rfl, List.pairwise_lt_range _, List.nodup_range _⟩

/-- Scenario A has the Call ids `0, 1`. -/
theorem call_ids_count_up_witness :
    callIds ([⟨.CallEvent, 0, some [102]⟩, ⟨.CallEvent, 1, some [98]⟩,
        ⟨.ReturnEvent, 0, some [103]⟩, ⟨.ReturnEvent, 1, some [99]⟩] : List (Event Bytes)) =
      List.range (numCallEvents ([⟨.CallEvent, 0, some [102]⟩, ⟨.CallEvent, 1, some [98]⟩,
        ⟨.ReturnEvent, 0, some [103]⟩, ⟨.ReturnEvent, 1, some [99]⟩] : List (Event Bytes))) ∧
    (callIds ([⟨.CallEvent, 0, some [102]⟩, ⟨.CallEvent, 1, some [98]⟩,
        ⟨.ReturnEvent, 0, some [103]⟩, ⟨.ReturnEvent, 1, some [99]⟩] :
        List (Event Bytes))).Pairwise (fun a b => a < b) ∧
    (callIds ([⟨.CallEvent, 0, some [102]⟩, ⟨.CallEvent, 1, some [98]⟩,
        ⟨.ReturnEvent, 0, some [103]⟩, ⟨.ReturnEvent, 1, some [99]⟩] :
        List (Event Bytes))).Nodup :=
  call_ids_count_up toyJson toyParser id
    ⟨[[1, 1, 102], [1, 2, 98], [2, 1, 103], [2, 2, 99]], none⟩ _ rfl (by decide)

/-! ## C4: a Return echoes an earlier Call -/

theorem returnsPreceded_append {V : Type} (evs tail : List (Event V))
    (h1 : ReturnsPreceded evs)
    (h2 : ∀ e ∈ tail, e.Kind = .ReturnEvent → ∃ c ∈ evs, c.Kind = .CallEvent ∧ c.Id = e.Id) :
    ReturnsPreceded (evs ++ tail) := by
  intro j e hj hk
  by_cases hlt : j < evs.length
  · rw [List.getElem?_append_left hlt] at hj
    obtain ⟨i, c, hi, hc, hck, hcid⟩ := h1 j e hj hk
    exact ⟨i, c, hi, by rw [List.getElem?_append_left (lt_trans hi hlt)]; exact hc, hck, hcid⟩
  · have hle : evs.length ≤ j := Nat.le_of_not_lt hlt
    rw [List.getElem?_append_right hle] at hj
    obtain ⟨c, hc, hck, hcid⟩ := h2 e (List.getElem?_mem hj) hk
    obtain ⟨i, hi⟩ := List.getElem?_of_mem hc
    have hil : i < evs.length := by
      by_contra hn
      rw [List.getElem?_eq_none (Nat.le_of_not_lt hn)] at hi
      cases hi
    exact ⟨i, c, lt_of_lt_of_le hil hle, by rw [List.getElem?_append_left hil]; exact hi,
      hck, hcid⟩

theorem mem_mapDelete {m : List (Int × Nat)} {k : Int} {e : Int × Nat}
    (h : e ∈ mapDelete m k) : e ∈ m :=
  List.mem_of_mem_filter h

theorem mapLookup_mem {m : List (Int × Nat)} {k : Int} (h : k ∈ keys m) :
    (k, mapLookup m k) ∈ m := by
  induction m with
  | nil => cases h
  | cons hd tl ih =>
    obtain ⟨a, b⟩ := hd
    by_cases hk : k = a
    · subst hk
      simp [mapLookup, List.lookup]
    · have hk2 : (k == a) = false := by simpa using hk
      have h2 : k ∈ keys tl := by
        rcases List.mem_cons.mp h with h3 | h3
        · exact absurd h3 hk
        · exact h3
      have h3 : mapLookup ((a, b) :: tl) k = mapLookup tl k := by
        simp [mapLookup, List.lookup, hk2]
      rw [h3]
      exact List.mem_cons_of_mem _ (ih h2)

theorem mapFromCalls_applyRec {V : Type} (s : ReplayState V) (r : Rec V)
    (h : MapFromCalls s) : MapFromCalls (applyRec s r) := by
  cases r with
  | call proc value =>
    intro e he
    rcases List.mem_cons.mp he with rfl | he2
    · exact ⟨{ Kind := .CallEvent, Id := s.id, Value := value }, by simp [applyRec], rfl, rfl⟩
    · obtain ⟨c, hc, hck, hcid⟩ := h e (mem_mapDelete he2)
      exact ⟨c, List.mem_append_left _ hc, hck, hcid⟩
  | resolved proc v =>
    intro e he
    obtain ⟨c, hc, hck, hcid⟩ := h e (mem_mapDelete he)
    exact ⟨c, List.mem_append_left _ hc, hck, hcid⟩
  | unresolved proc => exact h

theorem mapFromCalls_runRecs {V : Type} (recs : List (Rec V)) (s : ReplayState V)
    (h : MapFromCalls s) : MapFromCalls (runRecs s recs) := by
  induction recs generalizing s with
  | nil => exact h
  | cons r rs ih => exact ih _ (mapFromCalls_applyRec s r h)

theorem returnsPreceded_runRecs {V : Type} (recs : List (Rec V)) (s : ReplayState V)
    (hm : MapFromCalls s) (hp : ReturnsPreceded s.events)
    (ho : noOrphan (keys s.procID) recs = true) :
    ReturnsPreceded (runRecs s recs).events := by
  induction recs generalizing s with
  | nil => exact hp
  | cons r rs ih =>
    have ho2 : noOrphan (pendingAfter (keys s.procID) r) rs = true := by
      cases r <;> simp only [noOrphan, Bool.and_eq_true] at ho <;> exact ho.2
    rw [runRecs_cons]
    refine ih _ (mapFromCalls_applyRec s r hm) ?_ (by rw [keys_applyRec]; exact ho2)
    cases r with
    | call proc value =>
      refine returnsPreceded_append _ _ hp ?_
      intro e he hk
      rw [List.mem_singleton.mp he] at hk
      cases hk
    | resolved proc v =>
      simp only [noOrphan, Bool.and_eq_true, decide_eq_true_eq] at ho
      refine returnsPreceded_append _ _ hp ?_
      intro e he _
      rw [List.mem_singleton.mp he]
      exact hm _ (mapLookup_mem ho.1)
    | unresolved proc => exact hp

/-- C4, as stated, fails: the log `[return proc1 "x"]` replays successfully to
the single event `Return(0, x)`, which no Call event precedes. -/
theorem return_echoes_call_counterexample :
    replayEvents toyJson toyParser id ⟨[[2, 1, 120]], none⟩ =
      .ok [⟨.ReturnEvent, 0, some [120]⟩] ∧
    ¬ ReturnsPreceded ([⟨.ReturnEvent, 0, some [120]⟩] : List (Event Bytes)) := by
  refine ⟨rfl, ?_⟩
  intro h
  obtain ⟨i, _, hi, _⟩ := h 0 _ rfl rfl
  omega

/-- C4 (amended). On a log with no orphaned Complete (every resolved Complete
record is for a proc that has a pending Call at that point), every Return event
of a successful replay, read from the file or synthesized, has a Call event with
the same id at an earlier position of the sequence. -/
theorem return_echoes_call {E A V : Type} (json : JsonCodec E A) (p : RecordParser E V)
    (rangeOrder : List (Int × Nat) → List (Int × Nat)) (sr : ScanResult E)
    (events : List (Event V)) (recs : List (Rec V))
    (hperm : ∀ m, (rangeOrder m).Perm m)
    (hok : replayEvents json p rangeOrder sr = .ok events)
    (hdec : decodeAll json p sr.tokens = .ok recs)
    (horphan : noOrphan [] recs = true) :
    ReturnsPreceded events := by
  obtain ⟨recs2, hdec2, _, hev⟩ := replayEvents_ok_inv hok
  rw [hdec] at hdec2
  cases hdec2
  have hinit : MapFromCalls (initState V) := by
    intro e he
    cases he
  have hpinit : ReturnsPreceded (initState V).events := by
    intro j e hj
    simp [initState] at hj
  have hm := mapFromCalls_runRecs recs (initState V) hinit
  have hp := returnsPreceded_runRecs recs (initState V) hinit hpinit horphan
  rw [hev]
  refine returnsPreceded_append _ _ hp ?_
  intro e he _
  simp only [synthesized, List.map_map, List.mem_map, Function.comp] at he
  obtain ⟨a, ha, rfl⟩ := he
  exact hm a ((hperm _).mem_iff.mp ha)

/-- Scenario B meets the hypotheses of the amended C4: its synthesized
`Return(0)` follows `Call(0)`. -/
theorem return_echoes_call_witness :
    ReturnsPreceded ([⟨.CallEvent, 0, some [102]⟩, ⟨.ReturnEvent, 0, some [255]⟩] :
      List (Event Bytes)) :=
  return_echoes_call toyJson toyParser id ⟨[[1, 1, 102]], none⟩ _
    [Rec.call 1 (some [102])] (fun m => List.Perm.refl m) rfl rfl rfl

/-! ## C5: clean pairs -/

theorem mem_keys_of_no_call {V : Type} (P : Int) (l : List (Rec V)) (s : ReplayState V)
    (hc : ∀ r ∈ l, isCallOf P r = false) (h : P ∈ keys (runRecs s l).procID) :
    P ∈ keys s.procID := by
  induction l generalizing s with
  | nil => exact h
  | cons r rs ih =>
    have h1 := ih (applyRec s r) (fun x hx => hc x (List.mem_cons_of_mem _ hx)) h
    rw [keys_applyRec] at h1
    have hr := hc r (List.mem_cons_self _ _)
    cases r with
    | call proc value =>
      have hne : proc ≠ P := by simpa [isCallOf] using hr
      rcases List.mem_cons.mp h1 with h2 | h2
      · exact absurd h2.symm hne
      · exact List.mem_of_mem_filter h2
    | resolved proc v => exact List.mem_of_mem_filter h1
    | unresolved proc => exact h1

theorem not_mem_keys_after_resolved {V : Type} (s : ReplayState V) (P : Int) (w : V) :
    P ∉ keys (applyRec s (Rec.resolved P w)).procID := by
  rw [keys_applyRec]
  simp [pendingAfter]

/-- A proc that is in the map after the records `pre` has a last Invoke record
in `pre` that no resolved Complete record of the proc follows. -/
theorem pending_split {V : Type} (P : Int) (pre : List (Rec V))
    (h : P ∈ keys (runRecs (initState V) pre).procID) :
    ∃ pre1 v1 mid, pre = pre1 ++ Rec.call P v1 :: mid ∧
      (∀ r ∈ mid, isCallOf P r = false) ∧ (∀ r ∈ mid, isResolvedOf P r = false) := by
  have hcall : ∃ x ∈ pre, isCallOf P x = true := by
    by_contra hn
    have hc : ∀ r ∈ pre, isCallOf P r = false := by
      intro r hr
      cases hq : isCallOf P r with
      | false => rfl
      | true => exact absurd ⟨r, hr, hq⟩ hn
    have := mem_keys_of_no_call P pre (initState V) hc h
    cases this
  obtain ⟨a, x, b, hab, hx, hb⟩ := exists_last_split (isCallOf P) pre hcall
  cases x with
  | resolved proc w => simp [isCallOf] at hx
  | unresolved proc => simp [isCallOf] at hx
  | call proc v1 =>
    have hproc : proc = P := by simpa [isCallOf] using hx
    subst hproc
    refine ⟨a, v1, b, hab, hb, ?_⟩
    by_contra hn
    have hres : ∃ y ∈ b, isResolvedOf proc y = true := by
      by_contra hn2
      apply hn
      intro r hr
      cases hq : isResolvedOf proc r with
      | false => rfl
      | true => exact absurd ⟨r, hr, hq⟩ hn2
    obtain ⟨c, y, d, hcd, hy, _⟩ := exists_last_split (isResolvedOf proc) b hres
    cases y with
    | call q v2 => simp [isResolvedOf] at hy
    | unresolved q => simp [isResolvedOf] at hy
    | resolved q w =>
      have hq : q = proc := by simpa [isResolvedOf] using hy
      subst hq
      have hd : ∀ r ∈ d, isCallOf q r = false := by
        intro r hr
        apply hb
        rw [hcd]
        exact List.mem_append_right _ (List.mem_cons_of_mem _ hr)
      have hpre : pre = (a ++ Rec.call q v1 :: c) ++ Rec.resolved q w :: d := by
        rw [hab, hcd]; simp
      rw [hpre, runRecs_append, runRecs_cons] at h
      exact not_mem_keys_after_resolved _ q w (mem_keys_of_no_call q d _ hd h)

theorem mapLookup_of_entriesOf {m : List (Int × Nat)} {P : Int} {v : Nat}
    (h : entriesOf P m = [(P, v)]) : mapLookup m P = v := by
  induction m with
  | nil => cases h
  | cons hd tl ih =>
    obtain ⟨a, b⟩ := hd
    by_cases ha : a = P
    · subst ha
      have h1 : entriesOf a ((a, b) :: tl) = (a, b) :: entriesOf a tl := by
        simp [entriesOf]
      rw [h1] at h
      have hb : b = v := by
        have := (List.cons.inj h).1
        exact (Prod.mk.inj this).2
      simp [mapLookup, List.lookup, hb]
    · have h1 : entriesOf P ((a, b) :: tl) = entriesOf P tl := by
        simp [entriesOf, ha]
      rw [h1] at h
      have hk : (P == a) = false := by simpa using (fun hh : P = a => ha hh.symm)
      have h3 : mapLookup ((a, b) :: tl) P = mapLookup tl P := by
        simp [mapLookup, List.lookup, hk]
      rw [h3]
      exact ih h

theorem getElem?_events_resolved {V : Type} (pre post : List (Rec V)) (P : Int) (w : V)
    (tail : List (Event V)) :
    ((runRecs (initState V) (pre ++ Rec.resolved P w :: post)).events ++ tail)[
        (runRecs (initState V) pre).events.length]? =
      some { Kind := .ReturnEvent, Id := mapLookup (runRecs (initState V) pre).procID P,
             Value := some w } := by
  rw [runRecs_append, runRecs_cons]
  obtain ⟨t, ht⟩ :=
    events_runRecs_prefix post (applyRec (runRecs (initState V) pre) (Rec.resolved P w))
  rw [ht]
  simp only [applyRec, List.append_assoc]
  rw [List.getElem?_append_right (le_refl _)]
  simp

theorem noOrphan_split {V : Type} (pre post : List (Rec V)) (P : Int) (w : V)
    (s : ReplayState V)
    (h : noOrphan (keys s.procID) (pre ++ Rec.resolved P w :: post) = true) :
    P ∈ keys (runRecs s pre).procID := by
  induction pre generalizing s with
  | nil =>
    simp only [List.nil_append, noOrphan, Bool.and_eq_true, decide_eq_true_eq] at h
    exact h.1
  | cons r rs ih =>
    rw [runRecs_cons]
    apply ih
    rw [keys_applyRec]
    cases r <;> simp only [List.cons_append, noOrphan, Bool.and_eq_true] at h <;> exact h.2

theorem allCallsAnswered_split {V : Type} (pre post : List (Rec V)) (P : Int)
    (v : Option V) (h : allCallsAnswered (pre ++ Rec.call P v :: post) = true) :
    ∃ r ∈ post, isResolvedOf P r = true := by
  induction pre with
  | nil =>
    simp only [List.nil_append, allCallsAnswered, Bool.and_eq_true, List.any_eq_true] at h
    exact h.1
  | cons r rs ih =>
    apply ih
    cases r <;> simp only [List.cons_append, allCallsAnswered, Bool.and_eq_true] at h <;>
      exact h.2

theorem procID_nil_of_allCallsAnswered {V : Type} (recs : List (Rec V))
    (h : allCallsAnswered recs = true) : (runRecs (initState V) recs).procID = [] := by
  rw [List.eq_nil_iff_forall_not_mem]
  intro e he
  have hk : e.1 ∈ keys (runRecs (initState V) recs).procID := List.mem_map_of_mem Prod.fst he
  obtain ⟨pre1, v1, mid, hsplit, _, hres⟩ := pending_split e.1 recs hk
  rw [hsplit] at h
  obtain ⟨r, hr, hq⟩ := allCallsAnswered_split pre1 mid e.1 v1 h
  rw [hres r hr] at hq
  cases hq

/-- C5, as stated, fails in two ways. In the log `[call proc1 "a", return proc1
<unresolved>, return proc1 "b"]` proc1 has at most one outstanding operation at
a time and its Invoke record is followed by a resolved Complete record, the
replay succeeds, and it emits two events for three records. In the log `[call
proc2 "z", call proc1 "a", return proc1 "b", return proc1 "c", return proc2
"y"]` no proc has two Invoke records outstanding and every Invoke record is
later answered, but the second Complete record of proc1 finds proc1 not pending
and its Return carries id `0`, while the Call of proc1 has id `1`. -/
theorem clean_pairs_counterexample :
    (decodeAll toyJson toyParser [[1, 1, 97], [2, 1], [2, 1, 98]] =
      .ok [Rec.call 1 (some [97]), Rec.unresolved 1, Rec.resolved 1 [98]] ∧
    noDoubleCall [] [Rec.call 1 (some [97]), Rec.unresolved 1, Rec.resolved 1 ([98] : Bytes)]
      = true ∧
    noOrphan [] [Rec.call 1 (some [97]), Rec.unresolved 1, Rec.resolved 1 ([98] : Bytes)]
      = true ∧
    allCallsAnswered [Rec.call 1 (some [97]), Rec.unresolved 1, Rec.resolved 1 ([98] : Bytes)]
      = true ∧
    replayEvents toyJson toyParser id ⟨[[1, 1, 97], [2, 1], [2, 1, 98]], none⟩ =
      .ok [⟨.CallEvent, 0, some [97]⟩, ⟨.ReturnEvent, 0, some [98]⟩] ∧
    ([⟨.CallEvent, 0, some [97]⟩, ⟨.ReturnEvent, 0, some [98]⟩] : List (Event Bytes)).length ≠
      ([[1, 1, 97], [2, 1], [2, 1, 98]] : List Bytes).length) ∧
    (decodeAll toyJson toyParser
        [[1, 2, 122], [1, 1, 97], [2, 1, 98], [2, 1, 99], [2, 2, 121]] =
      .ok [Rec.call 2 (some [122]), Rec.call 1 (some [97]), Rec.resolved 1 [98],
        Rec.resolved 1 [99], Rec.resolved 2 [121]] ∧
    noDoubleCall [] [Rec.call 2 (some [122]), Rec.call 1 (some [97]), Rec.resolved 1 [98],
        Rec.resolved 1 [99], Rec.resolved 2 ([121] : Bytes)] = true ∧
    allCallsAnswered [Rec.call 2 (some [122]), Rec.call 1 (some [97]), Rec.resolved 1 [98],
        Rec.resolved 1 [99], Rec.resolved 2 ([121] : Bytes)] = true ∧
    replayEvents toyJson toyParser id
        ⟨[[1, 2, 122], [1, 1, 97], [2, 1, 98], [2, 1, 99], [2, 2, 121]], none⟩ =
      .ok [⟨.CallEvent, 0, some [122]⟩, ⟨.CallEvent, 1, some [97]⟩,
           ⟨.ReturnEvent, 1, some [98]⟩, ⟨.ReturnEvent, 0, some [99]⟩,
           ⟨.ReturnEvent, 0, some [121]⟩]) :=
  ⟨⟨rfl, rfl, rfl, rfl, rfl, by decide⟩, rfl, rfl, rfl, rfl⟩

/-- C5 (clean pairs, amended). On a log in which no Invoke record is for a proc
that is pending, no resolved Complete record is for a proc that is not pending,
and every Invoke record is later followed by a resolved Complete record of the
same proc, a successful replay emits, in file order, exactly one event per
record that is not an unresolved Complete record, with the kind and the value of
that record; it emits no synthesized event; there are as many Return events as
Call events; and the Return emitted for a resolved Complete record of a proc
carries the id of the Call emitted for the last Invoke record of that proc before
it. -/
theorem clean_pairs {E A V : Type} (json : JsonCodec E A) (p : RecordParser E V)
    (rangeOrder : List (Int × Nat) → List (Int × Nat)) (sr : ScanResult E)
    (events : List (Event V)) (recs : List (Rec V))
    (hperm : ∀ m, (rangeOrder m).Perm m)
    (hok : replayEvents json p rangeOrder sr = .ok events)
    (hdec : decodeAll json p sr.tokens = .ok recs)
    (hdouble : noDoubleCall [] recs = true)
    (horphan : noOrphan [] recs = true)
    (hans : allCallsAnswered recs = true) :
    events.map eventShape = recs.filterMap recEvent? ∧
    synthesized p (rangeOrder (runRecs (initState V) recs).procID) = [] ∧
    events = (runRecs (initState V) recs).events ∧
    numReturnEvents events = numCallEvents events ∧
    ∀ (pre : List (Rec V)) (P : Int) (w : V) (post : List (Rec V)),
      recs = pre ++ Rec.resolved P w :: post →
      ∃ pre1 v1 mid cid, pre = pre1 ++ Rec.call P v1 :: mid ∧
        (∀ r ∈ mid, isCallOf P r = false) ∧ (∀ r ∈ mid, isResolvedOf P r = false) ∧
        events[(pre1.filterMap recEvent?).length]? =
          some { Kind := .CallEvent, Id := cid, Value := v1 } ∧
        events[(pre.filterMap recEvent?).length]? =
          some { Kind := .ReturnEvent, Id := cid, Value := some w } := by
  obtain ⟨recs2, hdec2, _, hev⟩ := replayEvents_ok_inv hok
  rw [hdec] at hdec2
  cases hdec2
  have hnil := procID_nil_of_allCallsAnswered recs hans
  have hsyn : synthesized p (rangeOrder (runRecs (initState V) recs).procID) = [] := by
    rw [hnil, (hperm []).eq_nil]
    rfl
  have hev2 : events = (runRecs (initState V) recs).events := by
    rw [hev, hsyn]; simp
  refine ⟨?_, hsyn, hev2, ?_, ?_⟩
  · rw [hev2, eventShape_runRecs]
    simp [initState]
  · have hb : Balanced (runRecs (initState V) recs) :=
      balanced_runRecs recs (initState V) ⟨List.nodup_nil, rfl⟩ horphan hdouble
    rw [hev2, hb.2, hnil]
    rfl
  · intro pre P w post hs
    have hP : P ∈ keys (runRecs (initState V) pre).procID :=
      noOrphan_split pre post P w (initState V) (by rw [← hs]; exact horphan)
    obtain ⟨pre1, v1, mid, hpre, hc, hr⟩ := pending_split P pre hP
    refine ⟨pre1, v1, mid, (runRecs (initState V) pre1).id, hpre, hc, hr, ?_, ?_⟩
    · have h1 := getElem?_events_call pre1 (mid ++ Rec.resolved P w :: post) P v1 []
      have hs2 : recs = pre1 ++ Rec.call P v1 :: (mid ++ Rec.resolved P w :: post) := by
        rw [hs, hpre]; simp
      rw [← hs2, List.append_nil, ← hev2, length_events_runRecs_init] at h1
      exact h1
    · have h1 := getElem?_events_resolved pre post P w []
      rw [← hs, List.append_nil, ← hev2, length_events_runRecs_init] at h1
      rw [h1]
      have h2 := entriesOf_after_last_call pre1 mid P v1 hc hr
      rw [← hpre] at h2
      rw [mapLookup_of_entriesOf h2]

/-- Scenario A: the log `[call proc1 "foo", call proc2 "bar", return proc1
"foo-resp", return proc2 "bar-resp"]` replays to exactly `Call(0, foo)`,
`Call(1, bar)`, `Return(0, foo-resp)`, `Return(1, bar-resp)`: four events, none
synthesized, and the Return of proc1 carries the id of the Call of proc1. -/
theorem clean_pairs_witness :
    replayEvents toyJson toyParser id
        ⟨[[1, 1, 102, 111, 111], [1, 2, 98, 97, 114], [2, 1, 102, 111, 111, 45, 114],
          [2, 2, 98, 97, 114, 45, 114]], none⟩ =
      .ok [⟨.CallEvent, 0, some [102, 111, 111]⟩, ⟨.CallEvent, 1, some [98, 97, 114]⟩,
           ⟨.ReturnEvent, 0, some [102, 111, 111, 45, 114]⟩,
           ⟨.ReturnEvent, 1, some [98, 97, 114, 45, 114]⟩] ∧
    ([⟨.CallEvent, 0, some [102, 111, 111]⟩, ⟨.CallEvent, 1, some [98, 97, 114]⟩,
      ⟨.ReturnEvent, 0, some [102, 111, 111, 45, 114]⟩,
      ⟨.ReturnEvent, 1, some [98, 97, 114, 45, 114]⟩] : List (Event Bytes)).map eventShape =
      [Rec.call 1 (some [102, 111, 111]), Rec.call 2 (some [98, 97, 114]),
        Rec.resolved 1 [102, 111, 111, 45, 114],
        Rec.resolved 2 [98, 97, 114, 45, 114]].filterMap recEvent? ∧
    synthesized toyParser (id (runRecs (initState Bytes)
      [Rec.call 1 (some [102, 111, 111]), Rec.call 2 (some [98, 97, 114]),
        Rec.resolved 1 [102, 111, 111, 45, 114],
        Rec.resolved 2 [98, 97, 114, 45, 114]]).procID) = [] ∧
    ∃ pre1 v1 mid cid,
      [Rec.call 1 (some [102, 111, 111]), Rec.call 2 (some ([98, 97, 114] : Bytes))] =
        pre1 ++ Rec.call 1 v1 :: mid ∧
      (∀ r ∈ mid, isCallOf 1 r = false) ∧ (∀ r ∈ mid, isResolvedOf 1 r = false) ∧
      ([⟨.CallEvent, 0, some [102, 111, 111]⟩, ⟨.CallEvent, 1, some [98, 97, 114]⟩,
        ⟨.ReturnEvent, 0, some [102, 111, 111, 45, 114]⟩,
        ⟨.ReturnEvent, 1, some [98, 97, 114, 45, 114]⟩] :
          List (Event Bytes))[(pre1.filterMap recEvent?).length]? =
        some { Kind := .CallEvent, Id := cid, Value := v1 } ∧
      ([⟨.CallEvent, 0, some [102, 111, 111]⟩, ⟨.CallEvent, 1, some [98, 97, 114]⟩,
        ⟨.ReturnEvent, 0, some [102, 111, 111, 45, 114]⟩,
        ⟨.ReturnEvent, 1, some [98, 97, 114, 45, 114]⟩] :
          List (Event Bytes))[([Rec.call 1 (some [102, 111, 111]),
            Rec.call 2 (some ([98, 97, 114] : Bytes))].filterMap recEvent?).length]? =
        some { Kind := .ReturnEvent, Id := cid, Value := some [102, 111, 111, 45, 114] } :=
  have h := clean_pairs toyJson toyParser id
    ⟨[[1, 1, 102, 111, 111], [1, 2, 98, 97, 114], [2, 1, 102, 111, 111, 45, 114],
      [2, 2, 98, 97, 114, 45, 114]], none⟩
    [⟨.CallEvent, 0, some [102, 111, 111]⟩, ⟨.CallEvent, 1, some [98, 97, 114]⟩,
      ⟨.ReturnEvent, 0, some [102, 111, 111, 45, 114]⟩,
      ⟨.ReturnEvent, 1, some [98, 97, 114, 45, 114]⟩]
    [Rec.call 1 (some [102, 111, 111]), Rec.call 2 (some [98, 97, 114]),
      Rec.resolved 1 [102, 111, 111, 45, 114], Rec.resolved 2 [98, 97, 114, 45, 114]]
    (fun m => List.Perm.refl m) rfl rfl rfl rfl rfl
  ⟨rfl, h.1, h.2.1,
    h.2.2.2.2 [Rec.call 1 (some [102, 111, 111]), Rec.call 2 (some [98, 97, 114])] 1
      [102, 111, 111, 45, 114] [Rec.resolved 2 [98, 97, 114, 45, 114]] rfl⟩

/-! ## C6: unresolved completion -/

theorem decodeAll_append {E A V : Type} (json : JsonCodec E A) (p : RecordParser E V)
    (xs ys : List Bytes) (a b : List (Rec V)) (hx : decodeAll json p xs = .ok a)
    (hy : decodeAll json p ys = .ok b) : decodeAll json p (xs ++ ys) = .ok (a ++ b) := by
  induction xs generalizing a with
  | nil =>
    cases hx
    exact hy
  | cons x rest ih =>
    rw [List.cons_append]
    simp only [decodeAll] at hx ⊢
    cases hc : classify json p x with
    | error err => rw [hc] at hx; cases hx
    | ok r =>
      rw [hc] at hx
      cases hd : decodeAll json p rest with
      | error err => rw [hd] at hx; cases hx
      | ok rs =>
        rw [hd] at hx
        cases hx
        rw [ih rs hd]
        rfl

theorem classify_unresolved {E A V : Type} (json : JsonCodec E A) (p : RecordParser E V)
    (line : Bytes) (op : operation) (hun : json.Unmarshal line = .ok op)
    (hact : op.Action ≠ InvokeOperation) (hresp : p.OnResponse op.Data = .ok none) :
    classify json p line = .ok (Rec.unresolved op.Proc) := by
  unfold classify
  rw [hun]
  simp only [hact, if_false]
  rw [hresp]

theorem entriesOf_of_mem_nodup {m : List (Int × Nat)} {P : Int} {i : Nat}
    (hn : (keys m).Nodup) (h : (P, i) ∈ m) : entriesOf P m = [(P, i)] := by
  induction m with
  | nil => cases h
  | cons hd tl ih =>
    obtain ⟨a, b⟩ := hd
    have hn2 : a ∉ keys tl ∧ (keys tl).Nodup := List.nodup_cons.mp hn
    rcases List.mem_cons.mp h with heq | hmem
    · cases heq
      have hnil : entriesOf P tl = [] := by
        unfold entriesOf
        rw [List.filter_eq_nil_iff]
        intro e he
        have : e.1 ≠ P := fun hk => hn2.1 (hk ▸ List.mem_map_of_mem Prod.fst he)
        simpa using this
      have h1 : entriesOf P ((P, i) :: tl) = (P, i) :: entriesOf P tl := by
        simp [entriesOf]
      rw [h1, hnil]
    · have hP : P ∈ keys tl := List.mem_map_of_mem Prod.fst hmem
      have hne : a ≠ P := fun hk => hn2.1 (hk ▸ hP)
      have h1 : entriesOf P ((a, b) :: tl) = entriesOf P tl := by
        simp [entriesOf, hne]
      rw [h1]
      exact ih hn2.2 hmem

/-- C6, as stated, fails: in the log `[call proc1 "a", return proc1 <unresolved>,
call proc1 "b"]` the id pending for proc1 when the unresolved Complete record is
processed is `0`, no resolved Complete record of proc1 follows, and the replay
emits no Return with id `0`: the later Invoke record overwrote the entry. -/
theorem unresolved_completion_counterexample :
    decodeAll toyJson toyParser [[1, 1, 97], [2, 1], [1, 1, 98]] =
      .ok [Rec.call 1 (some [97]), Rec.unresolved 1, Rec.call 1 (some [98])] ∧
    replayLoop toyJson toyParser (initState Bytes) [[1, 1, 97]] =
      .ok { procID := [(1, 0)], id := 1, events := [⟨.CallEvent, 0, some [97]⟩] } ∧
    replayLoop toyJson toyParser (initState Bytes) [[1, 1, 97], [2, 1]] =
      .ok { procID := [(1, 0)], id := 1, events := [⟨.CallEvent, 0, some [97]⟩] } ∧
    replayEvents toyJson toyParser id ⟨[[1, 1, 97], [2, 1], [1, 1, 98]], none⟩ =
      .ok [⟨.CallEvent, 0, some [97]⟩, ⟨.CallEvent, 1, some [98]⟩,
           ⟨.ReturnEvent, 1, some [255]⟩] ∧
    (⟨.ReturnEvent, 0, toyParser.OnNoopResponse⟩ : Event Bytes) ∉
      ([⟨.CallEvent, 0, some [97]⟩, ⟨.CallEvent, 1, some [98]⟩,
        ⟨.ReturnEvent, 1, some [255]⟩] : List (Event Bytes)) :=
  ⟨rfl, rfl, rfl, rfl, by decide⟩

/-- C6 (unresolved completion, amended). A Complete record whose `OnResponse`
decode is unresolved (nil value, nil error) emits no event and leaves the map and
the id counter unchanged, so an id `i` pending for its proc stays pending; if
neither a resolved Complete record nor a further Invoke record of that proc
follows, the end-of-log loop emits exactly one event for the proc, the
synthesized `Return(i, OnNoopResponse())`. -/
theorem unresolved_completion {E A V : Type} (json : JsonCodec E A) (p : RecordParser E V)
    (rangeOrder : List (Int × Nat) → List (Int × Nat)) (sr : ScanResult E)
    (events : List (Event V)) (preL postL : List Bytes) (line : Bytes) (op : operation)
    (pre post : List (Rec V)) (i : Nat)
    (hperm : ∀ m, (rangeOrder m).Perm m)
    (hok : replayEvents json p rangeOrder sr = .ok events)
    (hsplit : sr.tokens = preL ++ line :: postL)
    (hun : json.Unmarshal line = .ok op)
    (hact : op.Action ≠ InvokeOperation)
    (hresp : p.OnResponse op.Data = .ok none)
    (hpre : decodeAll json p preL = .ok pre)
    (hpost : decodeAll json p postL = .ok post)
    (hpend : (op.Proc, i) ∈ (runRecs (initState V) pre).procID)
    (hnores : ∀ r ∈ post, isResolvedOf op.Proc r = false)
    (hnocall : ∀ r ∈ post, isCallOf op.Proc r = false) :
    (∀ s : ReplayState V, replayStep json p s line = .ok s) ∧
    replayLoop json p (initState V) preL = .ok (runRecs (initState V) pre) ∧
    replayLoop json p (initState V) (preL ++ [line]) = .ok (runRecs (initState V) pre) ∧
    (∃ final : ReplayState V, replayLoop json p (initState V) sr.tokens = .ok final ∧
      events = final.events ++ (synthesized p (rangeOrder final.procID)).map Prod.snd ∧
      (synthesized p (rangeOrder final.procID)).filter (fun e => decide (e.1 = op.Proc)) =
        [(op.Proc, { Kind := .ReturnEvent, Id := i, Value := p.OnNoopResponse })]) := by
  have hcl := classify_unresolved json p line op hun hact hresp
  have hline : decodeAll json p [line] = .ok [Rec.unresolved op.Proc] := by
    simp only [decodeAll, hcl]
  have hall : decodeAll json p sr.tokens = .ok (pre ++ Rec.unresolved op.Proc :: post) := by
    rw [hsplit]
    have h1 := decodeAll_append json p [line] postL _ _ hline hpost
    exact decodeAll_append json p preL _ _ _ hpre h1
  obtain ⟨recs2, hdec2, _, hev⟩ := replayEvents_ok_inv hok
  rw [hall] at hdec2
  cases hdec2
  refine ⟨?_, replayLoop_of_decodeAll hpre _, ?_, ?_⟩
  · intro s
    rw [replayStep_eq_classify, hcl]
    rfl
  · rw [replayLoop_of_decodeAll (decodeAll_append json p preL [line] _ _ hpre hline),
      runRecs_append]
    rfl
  · refine ⟨_, replayLoop_of_decodeAll hall _, hev, ?_⟩
    rw [synthesized_filter]
    have h0 : entriesOf op.Proc (runRecs (initState V) pre).procID = [(op.Proc, i)] :=
      entriesOf_of_mem_nodup (nodup_keys_runRecs pre (initState V) List.nodup_nil) hpend
    have h1 : entriesOf op.Proc
        (runRecs (initState V) (pre ++ Rec.unresolved op.Proc :: post)).procID =
        [(op.Proc, i)] := by
      rw [runRecs_append, runRecs_cons, entriesOf_runRecs_frame op.Proc post _ hnocall hnores]
      exact h0
    rw [entriesOf_perm_singleton (hperm _) h1]
    rfl

/-- Scenario C: in the log `[call proc1 "a", return proc1 <unresolved>]` the
unresolved Complete record changes nothing and the pending id `0` receives the
synthesized `Return(0, OnNoopResponse())`. -/
theorem unresolved_completion_witness :
    replayEvents toyJson toyParser id ⟨[[1, 1, 97], [2, 1]], none⟩ =
      .ok [⟨.CallEvent, 0, some [97]⟩, ⟨.ReturnEvent, 0, some [255]⟩] ∧
    (∀ s : ReplayState Bytes, replayStep toyJson toyParser s [2, 1] = .ok s) ∧
    replayLoop toyJson toyParser (initState Bytes) [[1, 1, 97]] =
      .ok (runRecs (initState Bytes) [Rec.call 1 (some [97])]) ∧
    replayLoop toyJson toyParser (initState Bytes) ([[1, 1, 97]] ++ [[2, 1]]) =
      .ok (runRecs (initState Bytes) [Rec.call 1 (some [97])]) ∧
    (∃ final : ReplayState Bytes,
      replayLoop toyJson toyParser (initState Bytes) [[1, 1, 97], [2, 1]] = .ok final ∧
      ([⟨.CallEvent, 0, some [97]⟩, ⟨.ReturnEvent, 0, some [255]⟩] : List (Event Bytes)) =
        final.events ++ (synthesized toyParser (id final.procID)).map Prod.snd ∧
      (synthesized toyParser (id final.procID)).filter (fun e => decide (e.1 = 1)) =
        [(1, { Kind := .ReturnEvent, Id := 0, Value := toyParser.OnNoopResponse })]) :=
  ⟨rfl, unresolved_completion toyJson toyParser id ⟨[[1, 1, 97], [2, 1]], none⟩
    [⟨.CallEvent, 0, some [97]⟩, ⟨.ReturnEvent, 0, some [255]⟩] [[1, 1, 97]] [] [2, 1]
    { Action := "return", Proc := 1, Data := [] } [Rec.call 1 (some [97])] [] 0
    (fun m => List.Perm.refl m) rfl rfl rfl (by decide) rfl rfl rfl
    (by decide) (fun r hr => by cases hr) (fun r hr => by cases hr)⟩

/-! ## C7: the first bad record aborts the replay -/

theorem lineError_eq_classify {E A V : Type} (json : JsonCodec E A) (p : RecordParser E V)
    (line : Bytes) :
    lineError json p line =
      match classify json p line with
      | .error err => some err
      | .ok _ => none := by
  unfold lineError classify
  cases json.Unmarshal line with
  | error err => rfl
  | ok op =>
    by_cases h : op.Action = InvokeOperation
    · simp only [h, if_true]
      cases p.OnRequest op.Data with
      | error err => rfl
      | ok value => rfl
    · simp only [h, if_false]
      cases p.OnResponse op.Data with
      | error err => rfl
      | ok value =>
        cases value with
        | none => rfl
        | some v => rfl

theorem decodeAll_of_firstError_some {E A V : Type} (json : JsonCodec E A)
    (p : RecordParser E V) (lines : List Bytes) (e : E)
    (h : firstError json p lines = some e) : decodeAll json p lines = .error e := by
  induction lines with
  | nil => cases h
  | cons line rest ih =>
    simp only [firstError, lineError_eq_classify] at h
    simp only [decodeAll]
    cases hc : classify json p line with
    | error err =>
      rw [hc] at h
      cases h
      rfl
    | ok r =>
      rw [hc] at h
      rw [ih h]

theorem decodeAll_of_firstError_none {E A V : Type} (json : JsonCodec E A)
    (p : RecordParser E V) (lines : List Bytes)
    (h : firstError json p lines = none) : ∃ recs, decodeAll json p lines = .ok recs := by
  induction lines with
  | nil => exact ⟨[], rfl⟩
  | cons line rest ih =>
    simp only [firstError, lineError_eq_classify] at h
    simp only [decodeAll]
    cases hc : classify json p line with
    | error err =>
      rw [hc] at h
      cases h
    | ok r =>
      rw [hc] at h
      obtain ⟨rs, hrs⟩ := ih h
      exact ⟨r :: rs, by rw [hrs]⟩

theorem firstError_some_split {E A V : Type} (json : JsonCodec E A) (p : RecordParser E V)
    (lines : List Bytes) (e : E) (h : firstError json p lines = some e) :
    ∃ pre line post, lines = pre ++ line :: post ∧
      (∀ l ∈ pre, lineError json p l = none) ∧ lineError json p line = some e := by
  induction lines with
  | nil => cases h
  | cons line rest ih =>
    simp only [firstError] at h
    cases hl : lineError json p line with
    | some err =>
      rw [hl] at h
      cases h
      exact ⟨[], line, rest, rfl, fun l hl2 => (by cases hl2), hl⟩
    | none =>
      rw [hl] at h
      obtain ⟨pre, bad, post, hsplit, hpre, hbad⟩ := ih h
      refine ⟨line :: pre, bad, post, by rw [hsplit]; rfl, ?_, hbad⟩
      intro l hmem
      rcases List.mem_cons.mp hmem with rfl | hmem2
      · exact hl
      · exact hpre l hmem2

theorem firstError_none_iff {E A V : Type} (json : JsonCodec E A) (p : RecordParser E V)
    (lines : List Bytes) :
    firstError json p lines = none ↔ ∀ l ∈ lines, lineError json p l = none := by
  induction lines with
  | nil => simp [firstError]
  | cons line rest ih =>
    simp only [firstError]
    cases hl : lineError json p line with
    | some err =>
      simp only [false_iff, reduceCtorEq]
      intro hall
      have := hall line (List.mem_cons_self _ _)
      rw [hl] at this
      cases this
    | none =>
      simp only [ih, List.mem_cons, forall_eq_or_imp, hl, true_and]

theorem VerifyHistory_of_error {E A M V : Type} (json : JsonCodec E A)
    (fs : String → Except E (ScanResult E)) (check : M → List (Event V) → Bool)
    (rangeOrder : List (Int × Nat) → List (Int × Nat)) (name : String) (m : M)
    (p : RecordParser E V) (sr : ScanResult E) (e : E) (hfs : fs name = .ok sr)
    (h : replayEvents json p rangeOrder sr = .error e) :
    VerifyHistory json fs check rangeOrder name m p =
      { ok := false, err := some e, oracleCalls := [] } := by
  unfold VerifyHistory
  rw [hfs]
  simp only
  rw [h]

theorem VerifyHistory_of_ok {E A M V : Type} (json : JsonCodec E A)
    (fs : String → Except E (ScanResult E)) (check : M → List (Event V) → Bool)
    (rangeOrder : List (Int × Nat) → List (Int × Nat)) (name : String) (m : M)
    (p : RecordParser E V) (sr : ScanResult E) (events : List (Event V))
    (hfs : fs name = .ok sr) (h : replayEvents json p rangeOrder sr = .ok events) :
    VerifyHistory json fs check rangeOrder name m p =
      { ok := check m events, err := none, oracleCalls := [(m, events)] } := by
  unfold VerifyHistory
  rw [hfs]
  simp only
  rw [h]

theorem replayEvents_of_decodeAll_error {E A V : Type} {json : JsonCodec E A}
    {p : RecordParser E V} {sr : ScanResult E} {e : E}
    (h : decodeAll json p sr.tokens = .error e)
    (rangeOrder : List (Int × Nat) → List (Int × Nat)) :
    replayEvents json p rangeOrder sr = .error e := by
  unfold replayEvents
  rw [replayLoop_eq_decodeAll, h]

/-- C7 (replay aborts on the first bad record, amended). When the file opens
and the scanner reads it to its end without error, that is, with no I/O error
and with no line of `bufio.MaxScanTokenSize` (64 KiB) bytes or more,
`VerifyHistory` returns a non-nil error if and only if some line fails
`json.Unmarshal`, or is an Invoke record on which `OnRequest` fails, or is a
Complete record on which `OnResponse` fails; the returned error is that of the
first such line in file order, the boolean is `false`, and the oracle is not
called. -/
theorem abort_on_first_bad_record {E A M V : Type} (json : JsonCodec E A)
    (fs : String → Except E (ScanResult E)) (check : M → List (Event V) → Bool)
    (rangeOrder : List (Int × Nat) → List (Int × Nat)) (name : String) (m : M)
    (p : RecordParser E V) (sr : ScanResult E)
    (hfs : fs name = .ok sr) (hread : sr.err = none) :
    ((∃ e, (VerifyHistory json fs check rangeOrder name m p).err = some e) ↔
      ∃ line ∈ sr.tokens, ∃ e, lineError json p line = some e) ∧
    (VerifyHistory json fs check rangeOrder name m p).err = firstError json p sr.tokens ∧
    (∀ e, (VerifyHistory json fs check rangeOrder name m p).err = some e →
      VerifyHistory json fs check rangeOrder name m p =
        { ok := false, err := some e, oracleCalls := [] } ∧
      ∃ pre line post, sr.tokens = pre ++ line :: post ∧
        (∀ l ∈ pre, lineError json p l = none) ∧ lineError json p line = some e) := by
  have herr : (VerifyHistory json fs check rangeOrder name m p).err =
      firstError json p sr.tokens := by
    cases hf : firstError json p sr.tokens with
    | some e =>
      rw [VerifyHistory_of_error json fs check rangeOrder name m p sr e hfs
        (replayEvents_of_decodeAll_error (decodeAll_of_firstError_some json p _ e hf) _)]
    | none =>
      obtain ⟨recs, hrecs⟩ := decodeAll_of_firstError_none json p _ hf
      rw [VerifyHistory_of_ok json fs check rangeOrder name m p sr _ hfs
        (replayEvents_of_decodeAll hrecs hread rangeOrder)]
  refine ⟨?_, herr, ?_⟩
  · rw [herr]
    constructor
    · rintro ⟨e, he⟩
      obtain ⟨pre, line, post, hsplit, _, hbad⟩ := firstError_some_split json p _ e he
      exact ⟨line, by rw [hsplit]; simp, e, hbad⟩
    · rintro ⟨line, hmem, e, hbad⟩
      cases hf : firstError json p sr.tokens with
      | some e2 => exact ⟨e2, rfl⟩
      | none =>
        have := (firstError_none_iff json p _).mp hf line hmem
        rw [hbad] at this
        cases this
  · intro e he
    rw [herr] at he
    exact ⟨VerifyHistory_of_error json fs check rangeOrder name m p sr e hfs
        (replayEvents_of_decodeAll_error (decodeAll_of_firstError_some json p _ e he) _),
      firstError_some_split json p _ e he⟩

/-- A log whose second line is an Invoke record that `OnRequest` rejects and
whose third line does not decode: the error returned is that of the second
line, the boolean is `false`, and the oracle is not called. -/
theorem abort_on_first_bad_record_witness :
    VerifyHistory toyJson (fun _ => .ok ⟨[[1, 1, 97], [1, 2, 0], [9]], none⟩)
        (fun (_ : Nat) (evs : List (Event Bytes)) => decide (evs.length = 4)) id "log" 0
        toyParser =
      { ok := false, err := some "bad request", oracleCalls := [] } ∧
    ((∃ e, (VerifyHistory toyJson (fun _ => .ok ⟨[[1, 1, 97], [1, 2, 0], [9]], none⟩)
        (fun (_ : Nat) (evs : List (Event Bytes)) => decide (evs.length = 4)) id "log" 0
        toyParser).err = some e) ↔
      ∃ line ∈ ([[1, 1, 97], [1, 2, 0], [9]] : List Bytes),
        ∃ e, lineError toyJson toyParser line = some e) ∧
    (VerifyHistory toyJson (fun _ => .ok ⟨[[1, 1, 97], [1, 2, 0], [9]], none⟩)
        (fun (_ : Nat) (evs : List (Event Bytes)) => decide (evs.length = 4)) id "log" 0
        toyParser).err = firstError toyJson toyParser [[1, 1, 97], [1, 2, 0], [9]] :=
  have h := abort_on_first_bad_record toyJson
    (fun _ => .ok ⟨[[1, 1, 97], [1, 2, 0], [9]], none⟩)
    (fun (_ : Nat) (evs : List (Event Bytes)) => decide (evs.length = 4)) id "log" 0
    toyParser ⟨[[1, 1, 97], [1, 2, 0], [9]], none⟩ rfl rfl
  ⟨rfl, h.1, h.2.1⟩

/-! ## C8: verifier wiring -/

/-- C8 (verifier wiring). Whenever the file opens and the replay of the log
succeeds with the event sequence `events`, `VerifyHistory` returns
`(check m events, nil)`, it calls the oracle exactly once, with `m` and
`events`, and `events` are the events read from the file followed by the
synthesized Returns; so the result is `(true, nil)` when the oracle accepts and
`(false, nil)` when it rejects. -/
theorem verifier_wiring {E A M V : Type} (json : JsonCodec E A)
    (fs : String → Except E (ScanResult E)) (check : M → List (Event V) → Bool)
    (rangeOrder : List (Int × Nat) → List (Int × Nat)) (name : String) (m : M)
    (p : RecordParser E V) (sr : ScanResult E) (events : List (Event V))
    (hfs : fs name = .ok sr)
    (hok : replayEvents json p rangeOrder sr = .ok events) :
    VerifyHistory json fs check rangeOrder name m p =
      { ok := check m events, err := none, oracleCalls := [(m, events)] } ∧
    (check m events = true →
      (VerifyHistory json fs check rangeOrder name m p).ok = true ∧
      (VerifyHistory json fs check rangeOrder name m p).err = none) ∧
    (check m events = false →
      (VerifyHistory json fs check rangeOrder name m p).ok = false ∧
      (VerifyHistory json fs check rangeOrder name m p).err = none) ∧
    ∃ final : ReplayState V, replayLoop json p (initState V) sr.tokens = .ok final ∧
      events = final.events ++ (synthesized p (rangeOrder final.procID)).map Prod.snd := by
  have h := VerifyHistory_of_ok json fs check rangeOrder name m p sr events hfs hok
  refine ⟨h, ?_, ?_, ?_⟩
  · intro hc
    rw [h]
    exact ⟨hc, rfl⟩
  · intro hc
    rw [h]
    exact ⟨hc, rfl⟩
  · obtain ⟨recs, hdec, _, hev⟩ := replayEvents_ok_inv hok
    exact ⟨_, replayLoop_of_decodeAll hdec _, hev⟩

/-- Scenario D with an oracle that accepts exactly the histories of four
events: Scenario A is accepted, `(true, nil)`, and the oracle is called once
with its four events. -/
theorem verifier_wiring_witness :
    VerifyHistory toyJson
        (fun _ => .ok ⟨[[1, 1, 102], [1, 2, 98], [2, 1, 103], [2, 2, 99]], none⟩)
        (fun (_ : Nat) (evs : List (Event Bytes)) => decide (evs.length = 4)) id "log" 0
        toyParser =
      { ok := true, err := none,
        oracleCalls := [(0, [⟨.CallEvent, 0, some [102]⟩, ⟨.CallEvent, 1, some [98]⟩,
          ⟨.ReturnEvent, 0, some [103]⟩, ⟨.ReturnEvent, 1, some [99]⟩])] } :=
  (verifier_wiring toyJson
    (fun _ => .ok ⟨[[1, 1, 102], [1, 2, 98], [2, 1, 103], [2, 2, 99]], none⟩)
    (fun (_ : Nat) (evs : List (Event Bytes)) => decide (evs.length = 4)) id "log" 0
    toyParser ⟨[[1, 1, 102], [1, 2, 98], [2, 1, 103], [2, 2, 99]], none⟩
    [⟨.CallEvent, 0, some [102]⟩, ⟨.CallEvent, 1, some [98]⟩,
      ⟨.ReturnEvent, 0, some [103]⟩, ⟨.ReturnEvent, 1, some [99]⟩] rfl rfl).1

/-! ## Recorder and scanner facts -/

theorem record_done {E A : Type} (json : JsonCodec E A) (r r1 : Recorder) (proc : Int)
    (action : String) (a : A) (w1 w2 : WriteOutcome E)
    (h : record json r proc action a w1 w2 = (r1, none)) :
    ∃ data line, json.MarshalValue a = .ok data ∧
      json.MarshalOperation { Action := action, Proc := proc, Data := data } = .ok line ∧
      r1.f = r.f ++ line ++ [10] := by
  unfold record at h
  cases hv : json.MarshalValue a with
  | error err => rw [hv] at h; cases h
  | ok data =>
    rw [hv] at h
    simp only at h
    cases ho : json.MarshalOperation { Action := action, Proc := proc, Data := data } with
    | error err => rw [ho] at h; cases h
    | ok line =>
      rw [ho] at h
      refine ⟨data, line, rfl, ho, ?_⟩
      cases w1 with
      | failed n err => simp [fileWrite] at h
      | done =>
        cases w2 with
        | failed n err => simp [fileWrite] at h
        | done =>
          simp only [fileWrite] at h
          cases h
          rfl

theorem scanLinesFrom_line (line : Bytes) (h : 10 ∉ line) (cur rest : Bytes) :
    scanLinesFrom cur (line ++ 10 :: rest) = dropCR (cur ++ line) :: scanLinesFrom [] rest := by
  induction line generalizing cur with
  | nil => simp [scanLinesFrom]
  | cons b t ih =>
    have hb : b ≠ 10 := fun hb => h (hb ▸ List.mem_cons_self _ _)
    have ht : 10 ∉ t := fun ht => h (List.mem_cons_of_mem _ ht)
    rw [List.cons_append]
    simp only [scanLinesFrom, hb, if_false]
    rw [ih ht]
    simp

theorem scanLinesFrom_newline (xs ys cur : Bytes) :
    scanLinesFrom cur (xs ++ 10 :: ys) =
      scanLinesFrom cur (xs ++ [10]) ++ scanLinesFrom [] ys := by
  induction xs generalizing cur with
  | nil => simp [scanLinesFrom]
  | cons b t ih =>
    rw [List.cons_append, List.cons_append]
    by_cases hb : b = 10
    · simp only [scanLinesFrom, hb, if_true]
      rw [ih]
      rfl
    · simp only [scanLinesFrom, hb, if_false]
      rw [ih]

theorem scanLines_unlines (lines : List Bytes) (h : ∀ l ∈ lines, 10 ∉ l) :
    scanLines (unlines lines) = lines.map dropCR := by
  induction lines with
  | nil => rfl
  | cons l ls ih =>
    unfold scanLines at ih ⊢
    simp only [unlines]
    rw [scanLinesFrom_line l (h l (List.mem_cons_self _ _)),
      ih (fun x hx => h x (List.mem_cons_of_mem _ hx))]
    simp

theorem scanLines_append_line (content line : Bytes) (hline : 10 ∉ line)
    (hterm : content = [] ∨ ∃ c, content = c ++ [10]) :
    scanLines (content ++ line ++ [10]) = scanLines content ++ [dropCR line] := by
  have h1 : scanLines (line ++ [10]) = [dropCR line] := by
    unfold scanLines
    rw [scanLinesFrom_line line hline]
    simp [scanLinesFrom]
  rcases hterm with rfl | ⟨c, rfl⟩
  · simpa [scanLines, scanLinesFrom] using h1
  · unfold scanLines at h1 ⊢
    have : c ++ [10] ++ line ++ [10] = c ++ 10 :: (line ++ [10]) := by simp
    rw [this, scanLinesFrom_newline, h1]

/-! ## C10: the recorder appends one line -/

/-- C10 (recorder append). A `RecordRequest(proc, op)` that returns a nil error
leaves the previous content of the log as a prefix and appends to it exactly the
serialized record with action "call", the given proc and data the serialization
of `op`, followed by a newline; as `json.Marshal` emits no newline byte, a
scanner then reads the lines it read before and this one as the last.
`RecordResponse(proc, op)` does the same with action "return". -/
theorem recorder_append {E A : Type} (json : JsonCodec E A) (r r1 : Recorder) (proc : Int)
    (op : A) (w1 w2 : WriteOutcome E) :
    (RecordRequest json r proc op w1 w2 = (r1, none) →
      ∃ data line, json.MarshalValue op = .ok data ∧
        json.MarshalOperation { Action := "call", Proc := proc, Data := data } = .ok line ∧
        r1.f = r.f ++ line ++ [10] ∧
        (10 ∉ line → (r.f = [] ∨ ∃ c, r.f = c ++ [10]) →
          scanLines r1.f = scanLines r.f ++ [dropCR line])) ∧
    (RecordResponse json r proc op w1 w2 = (r1, none) →
      ∃ data line, json.MarshalValue op = .ok data ∧
        json.MarshalOperation { Action := "return", Proc := proc, Data := data } = .ok line ∧
        r1.f = r.f ++ line ++ [10] ∧
        (10 ∉ line → (r.f = [] ∨ ∃ c, r.f = c ++ [10]) →
          scanLines r1.f = scanLines r.f ++ [dropCR line])) := by
  constructor
  · intro h
    obtain ⟨data, line, hv, ho, hf⟩ := record_done json r r1 proc InvokeOperation op w1 w2 h
    refine ⟨data, line, hv, ho, hf, ?_⟩
    intro hline hterm
    rw [hf]
    exact scanLines_append_line r.f line hline hterm
  · intro h
    obtain ⟨data, line, hv, ho, hf⟩ := record_done json r r1 proc ReturnOperation op w1 w2 h
    refine ⟨data, line, hv, ho, hf, ?_⟩
    intro hline hterm
    rw [hf]
    exact scanLines_append_line r.f line hline hterm

/-- On a log that already holds one line, `RecordRequest(2, "b")` appends the
line `[1, 2, 98]` and its newline. -/
theorem recorder_append_witness :
    RecordRequest toyJson ⟨[1, 1, 97, 10]⟩ 2 [98] .done .done =
      (⟨[1, 1, 97, 10, 1, 2, 98, 10]⟩, none) ∧
    ∃ data line, toyJson.MarshalValue [98] = .ok data ∧
      toyJson.MarshalOperation { Action := "call", Proc := 2, Data := data } = .ok line ∧
      ([1, 1, 97, 10, 1, 2, 98, 10] : Bytes) = [1, 1, 97, 10] ++ line ++ [10] ∧
      (10 ∉ line → (([1, 1, 97, 10] : Bytes) = [] ∨ ∃ c, ([1, 1, 97, 10] : Bytes) = c ++ [10]) →
        scanLines [1, 1, 97, 10, 1, 2, 98, 10] = scanLines [1, 1, 97, 10] ++ [dropCR line]) :=
  ⟨rfl, (recorder_append toyJson ⟨[1, 1, 97, 10]⟩ ⟨[1, 1, 97, 10, 1, 2, 98, 10]⟩ 2 [98]
    .done .done).1 rfl⟩

/-! ## C9: round trip of record and replay -/

theorem toyJson_faithful : JsonFaithful toyJson := by
  intro a data action proc line _ hop
  simp only [toyJson, toyMarshalOperation] at hop
  split at hop
  · cases hop
  · rename_i hcond
    simp only [not_or] at hcond
    obtain ⟨hneg, hten, hmem, hlast⟩ := hcond
    have hproc : ((proc.toNat : Nat) : Int) = proc := Int.toNat_of_nonneg (not_lt.mp hneg)
    have hlast2 : ∀ t : Nat, (t :: proc.toNat :: data).getLast? ≠ some 13 := by
      intro t
      rw [List.getLast?_cons_cons]
      exact hlast
    split at hop
    · rename_i hact
      cases hop
      refine ⟨?_, ?_, ?_⟩
      · show toyUnmarshal (1 :: proc.toNat :: data) = _
        simp only [toyUnmarshal, hproc, hact]
      · simp only [List.mem_cons, not_or]
        exact ⟨by decide, fun h => hten h.symm, hmem⟩
      · unfold dropCR
        rw [if_neg (hlast2 1)]
    · split at hop
      · rename_i hact
        cases hop
        refine ⟨?_, ?_, ?_⟩
        · show toyUnmarshal (2 :: proc.toNat :: data) = _
          simp only [toyUnmarshal, hproc, hact]
        · simp only [List.mem_cons, not_or]
          exact ⟨by decide, fun h => hten h.symm, hmem⟩
        · unfold dropCR
          rw [if_neg (hlast2 2)]
      · cases hop

theorem classify_request {E A : Type} (json : JsonCodec E A) (p : RecordParser E A)
    (hj : JsonFaithful json) (proc : Int) (op : A) (data line : Bytes)
    (hv : json.MarshalValue op = .ok data)
    (ho : json.MarshalOperation { Action := InvokeOperation, Proc := proc, Data := data } =
      .ok line)
    (hp : ParserInverts json p (.request proc op)) :
    classify json p line = .ok (Rec.call proc (some op)) := by
  unfold classify
  rw [(hj op data InvokeOperation proc line hv ho).1]
  simp only [if_true]
  rw [hp data hv]

theorem classify_response {E A : Type} (json : JsonCodec E A) (p : RecordParser E A)
    (hj : JsonFaithful json) (proc : Int) (op : A) (data line : Bytes)
    (hv : json.MarshalValue op = .ok data)
    (ho : json.MarshalOperation { Action := ReturnOperation, Proc := proc, Data := data } =
      .ok line)
    (hp : ParserInverts json p (.response proc op)) :
    classify json p line = .ok (Rec.resolved proc op) := by
  unfold classify
  rw [(hj op data ReturnOperation proc line hv ho).1]
  have hne : ReturnOperation ≠ InvokeOperation := by decide
  simp only [hne, if_false]
  rw [hp data hv]

/-- The content written by a sequence of successful calls, as lines, and what
those lines decode to. -/
theorem runCalls_lines {E A : Type} (json : JsonCodec E A) (p : RecordParser E A)
    (hj : JsonFaithful json)
    (calls : List (RecorderCall A × WriteOutcome E × WriteOutcome E)) (r final : Recorder)
    (hrun : runCalls json r calls = some final)
    (hp : ∀ c ∈ calls, ParserInverts json p c.1)
    (hs : ∀ c ∈ calls, FitsToken json c.1) :
    ∃ lines recs, final.f = r.f ++ unlines lines ∧
      (∀ l ∈ lines, 10 ∉ l ∧ dropCR l = l ∧ l.length < MaxScanTokenSize) ∧
      decodeAll json p lines = .ok recs ∧
      recs.filterMap recEvent? = calls.map (fun c => callShape c.1) := by
  induction calls generalizing r with
  | nil =>
    cases hrun
    exact ⟨[], [], by simp [unlines], fun l hl => (by cases hl), rfl, rfl⟩
  | cons c cs ih =>
    obtain ⟨call, w1, w2⟩ := c
    simp only [runCalls] at hrun
    cases ha : applyCall json r call w1 w2 with
    | mk r1 e =>
      rw [ha] at hrun
      cases e with
      | some err => cases hrun
      | none =>
        simp only at hrun
        obtain ⟨lines, recs, hf, hl, hd, hsh⟩ :=
          ih r1 hrun (fun x hx => hp x (List.mem_cons_of_mem _ hx))
            (fun x hx => hs x (List.mem_cons_of_mem _ hx))
        have hpc := hp _ (List.mem_cons_self _ _)
        have hsc := hs _ (List.mem_cons_self _ _)
        cases call with
        | request proc op =>
          obtain ⟨data, line, hv, ho, hf1⟩ :=
            record_done json r r1 proc InvokeOperation op w1 w2 ha
          have hcl := classify_request json p hj proc op data line hv ho hpc
          have hjl := hj op data InvokeOperation proc line hv ho
          refine ⟨line :: lines, Rec.call proc (some op) :: recs, ?_, ?_, ?_, ?_⟩
          · rw [hf, hf1]; simp [unlines]
          · intro l hmem
            rcases List.mem_cons.mp hmem with rfl | h2
            · exact ⟨hjl.2.1, hjl.2.2, hsc data _ hv ho⟩
            · exact hl l h2
          · simp only [decodeAll, hcl, hd]
          · simp [recEvent?, callShape, hsh]
        | response proc op =>
          obtain ⟨data, line, hv, ho, hf1⟩ :=
            record_done json r r1 proc ReturnOperation op w1 w2 ha
          have hcl := classify_response json p hj proc op data line hv ho hpc
          have hjl := hj op data ReturnOperation proc line hv ho
          refine ⟨line :: lines, Rec.resolved proc op :: recs, ?_, ?_, ?_, ?_⟩
          · rw [hf, hf1]; simp [unlines]
          · intro l hmem
            rcases List.mem_cons.mp hmem with rfl | h2
            · exact ⟨hjl.2.1, hjl.2.2, hsc data _ hv ho⟩
            · exact hl l h2
          · simp only [decodeAll, hcl, hd]
          · simp [recEvent?, callShape, hsh]

theorem scanTokensFrom_line {E : Type} (errTooLong : E) (line : Bytes) (h : 10 ∉ line)
    (cur rest : Bytes) (hlen : (cur ++ line).length < MaxScanTokenSize) :
    scanTokensFrom errTooLong cur (line ++ 10 :: rest) =
      { tokens := dropCR (cur ++ line) :: (scanTokensFrom errTooLong [] rest).tokens
        err := (scanTokensFrom errTooLong [] rest).err } := by
  induction line generalizing cur with
  | nil =>
    have hc : ¬ MaxScanTokenSize ≤ cur.length := by
      simp only [List.append_nil] at hlen
      omega
    simp [scanTokensFrom, hc]
  | cons b t ih =>
    have hb : b ≠ 10 := fun hb => h (hb ▸ List.mem_cons_self _ _)
    have ht : 10 ∉ t := fun ht => h (List.mem_cons_of_mem _ ht)
    have hc : ¬ MaxScanTokenSize ≤ cur.length := by
      simp only [List.length_append, List.length_cons] at hlen
      omega
    rw [List.cons_append]
    simp only [scanTokensFrom, hc, hb, if_false]
    rw [ih ht (cur ++ [b]) (by simpa using hlen)]
    simp

theorem scanTokensFrom_too_long {E : Type} (errTooLong : E) (line : Bytes) (h : 10 ∉ line)
    (cur rest : Bytes) (hlen : MaxScanTokenSize ≤ (cur ++ line).length) :
    scanTokensFrom errTooLong cur (line ++ 10 :: rest) =
      { tokens := [], err := some errTooLong } := by
  induction line generalizing cur with
  | nil =>
    have hc : MaxScanTokenSize ≤ cur.length := by simpa using hlen
    simp [scanTokensFrom, hc]
  | cons b t ih =>
    have hb : b ≠ 10 := fun hb => h (hb ▸ List.mem_cons_self _ _)
    have ht : 10 ∉ t := fun ht => h (List.mem_cons_of_mem _ ht)
    rw [List.cons_append]
    by_cases hc : MaxScanTokenSize ≤ cur.length
    · simp only [scanTokensFrom, hc, if_true]
    · simp only [scanTokensFrom, hc, hb, if_false]
      exact ih ht (cur ++ [b]) (by simpa using hlen)

theorem scanFile_unlines {E : Type} (errTooLong : E) (lines : List Bytes)
    (h : ∀ l ∈ lines, 10 ∉ l ∧ l.length < MaxScanTokenSize) :
    scanFile errTooLong (unlines lines) = { tokens := lines.map dropCR, err := none } := by
  induction lines with
  | nil => rfl
  | cons l ls ih =>
    unfold scanFile at ih ⊢
    simp only [unlines]
    have hl := h l (List.mem_cons_self _ _)
    rw [scanTokensFrom_line errTooLong l hl.1 [] _ (by simpa using hl.2),
      ih (fun x hx => h x (List.mem_cons_of_mem _ hx))]
    simp

theorem toyMarshalOperation_zeros (n : Nat) :
    toyMarshalOperation { Action := "call", Proc := 1, Data := List.replicate n 0 } =
      .ok (1 :: 1 :: List.replicate n 0) := by
  have h1 : ¬ ((1 : Int) < 0 ∨ (1 : Int).toNat = 10 ∨ 10 ∈ List.replicate n 0 ∨
      ((1 : Int).toNat :: List.replicate n 0).getLast? = some 13) := by
    simp only [not_or]
    refine ⟨by decide, by decide, ?_, ?_⟩
    · intro hm
      have := (List.mem_replicate.mp hm).2
      omega
    · intro hl
      have hm := List.mem_of_getLast?_eq_some hl
      rcases List.mem_cons.mp hm with h2 | h2
      · revert h2; decide
      · have := (List.mem_replicate.mp h2).2
        omega
  unfold toyMarshalOperation
  rw [if_neg h1]
  rfl

theorem record_zeros (n : Nat) :
    runCalls toyJson ⟨[]⟩ [(RecorderCall.request 1 (List.replicate n 0), .done, .done)] =
      some ⟨(1 :: 1 :: List.replicate n 0) ++ [10]⟩ := by
  have hv : toyJson.MarshalValue (List.replicate n 0) = .ok (List.replicate n 0) := rfl
  have ho : toyJson.MarshalOperation
      { Action := InvokeOperation, Proc := 1, Data := List.replicate n 0 } =
      .ok (1 :: 1 :: List.replicate n 0) := toyMarshalOperation_zeros n
  have h : RecordRequest toyJson ⟨[]⟩ 1 (List.replicate n 0) .done .done =
      ((⟨(1 :: 1 :: List.replicate n 0) ++ [10]⟩ : Recorder), (none : Option String)) := by
    unfold RecordRequest record
    rw [hv]
    simp only
    rw [ho]
    simp [fileWrite]
  simp only [runCalls, applyCall, h]

theorem scanFile_zeros {E : Type} (errTooLong : E) (n : Nat) (hn : MaxScanTokenSize ≤ n) :
    scanFile errTooLong ((1 :: 1 :: List.replicate n 0) ++ [10]) =
      { tokens := [], err := some errTooLong } := by
  unfold scanFile
  apply scanTokensFrom_too_long
  · intro hm
    rcases List.mem_cons.mp hm with h2 | h2
    · revert h2; decide
    · rcases List.mem_cons.mp h2 with h3 | h3
      · revert h3; decide
      · have := (List.mem_replicate.mp h3).2
        omega
  · simp only [List.nil_append, List.length_cons, List.length_replicate]
    omega

theorem replayEvents_of_scan_error {E A V : Type} (json : JsonCodec E A)
    (p : RecordParser E V) (rangeOrder : List (Int × Nat) → List (Int × Nat)) (e : E) :
    replayEvents json p rangeOrder { tokens := [], err := some e } = .error e := rfl

theorem replayEvents_zeros (n : Nat) (hn : MaxScanTokenSize ≤ n) :
    replayEvents toyJson toyParser id
        (scanFile "bufio.Scanner: token too long" ((1 :: 1 :: List.replicate n 0) ++ [10])) =
      .error "bufio.Scanner: token too long" := by
  rw [scanFile_zeros "bufio.Scanner: token too long" n hn]
  rfl

theorem VerifyHistory_zeros (n : Nat) (hn : MaxScanTokenSize ≤ n) :
    VerifyHistory toyJson
        (fun _ => .ok (scanFile "bufio.Scanner: token too long"
          ((1 :: 1 :: List.replicate n 0) ++ [10])))
        (fun (_ : Nat) (_ : List (Event Bytes)) => true) id "log" 0 toyParser =
      { ok := false, err := some "bufio.Scanner: token too long", oracleCalls := [] } :=
  VerifyHistory_of_error toyJson _ _ id "log" 0 toyParser _ _ (Eq.refl _)
    (replayEvents_zeros n hn)

theorem parserInverts_zeros (n : Nat) (hn : 2 ≤ n) :
    ParserInverts toyJson toyParser (RecorderCall.request 1 (List.replicate n 0)) := by
  intro data hd
  have hdata : data = List.replicate n 0 := (Except.ok.inj hd).symm
  subst hdata
  have hne : List.replicate n (0 : Nat) ≠ [0] := by
    intro h
    have := congrArg List.length h
    rw [List.length_replicate] at this
    simp at this
    omega
  show (if List.replicate n (0 : Nat) = [0] then Except.error "bad request"
    else Except.ok (some (List.replicate n 0))) = _
  rw [if_neg hne]

/-- C9, as stated, fails: `RecordRequest(1, op)` with a payload of 65536 bytes
succeeds on an empty log and the toy parser inverts the encoding of that
payload, but the line it writes exceeds the scanner's buffer: the replay of the
resulting log returns the scanner's error and no event, and `VerifyHistory`
returns `(false, err)` without calling the oracle. -/
theorem record_replay_round_trip_counterexample :
    runCalls toyJson ⟨[]⟩
        [(RecorderCall.request 1 (List.replicate 65536 0), .done, .done)] =
      some ⟨(1 :: 1 :: List.replicate 65536 0) ++ [10]⟩ ∧
    ParserInverts toyJson toyParser (RecorderCall.request 1 (List.replicate 65536 0)) ∧
    replayEvents toyJson toyParser id
        (scanFile "bufio.Scanner: token too long"
          ((1 :: 1 :: List.replicate 65536 0) ++ [10])) =
      .error "bufio.Scanner: token too long" ∧
    VerifyHistory toyJson
        (fun _ => .ok (scanFile "bufio.Scanner: token too long"
          ((1 :: 1 :: List.replicate 65536 0) ++ [10])))
        (fun (_ : Nat) (_ : List (Event Bytes)) => true) id "log" 0 toyParser =
      { ok := false, err := some "bufio.Scanner: token too long", oracleCalls := [] } :=
  ⟨record_zeros 65536, parserInverts_zeros 65536 (by decide),
    replayEvents_zeros 65536 (by decide), VerifyHistory_zeros 65536 (by decide)⟩

/-- C9 (round trip of record and replay, amended). Let the parser invert the
payload encoding on every recorded value (decoding the serialization gives the
value back, resolved), let `encoding/json` write a record as one line that it
reads back, and let every line written be shorter than the scanner's buffer
(`bufio.MaxScanTokenSize`, 64 KiB). For any sequence of
`RecordRequest`/`RecordResponse` calls on an initially empty log that all return
a nil error, the scanner reads the resulting log without error, the replay
succeeds, and the events read from the file are one per call, in the order of
the calls: a Call for a `RecordRequest`, a Return for a `RecordResponse`, each
carrying the recorded value. -/
theorem record_replay_round_trip {E A : Type} (json : JsonCodec E A) (p : RecordParser E A)
    (errTooLong : E)
    (calls : List (RecorderCall A × WriteOutcome E × WriteOutcome E)) (final : Recorder)
    (hj : JsonFaithful json)
    (hp : ∀ c ∈ calls, ParserInverts json p c.1)
    (hshort : ∀ c ∈ calls, FitsToken json c.1)
    (hrun : runCalls json ⟨[]⟩ calls = some final) :
    (scanFile errTooLong final.f).err = none ∧
    ∃ st : ReplayState A,
      replayLoop json p (initState A) (scanFile errTooLong final.f).tokens = .ok st ∧
      st.events.map eventShape = calls.map (fun c => callShape c.1) ∧
      ∀ rangeOrder : List (Int × Nat) → List (Int × Nat),
        replayEvents json p rangeOrder (scanFile errTooLong final.f) =
          .ok (st.events ++ (synthesized p (rangeOrder st.procID)).map Prod.snd) := by
  obtain ⟨lines, recs, hf, hl, hd, hs⟩ :=
    runCalls_lines json p hj calls ⟨[]⟩ final hrun hp hshort
  have hscan : scanFile errTooLong final.f = { tokens := lines, err := none } := by
    rw [hf]
    simp only [List.nil_append]
    rw [scanFile_unlines errTooLong lines (fun l hm => ⟨(hl l hm).1, (hl l hm).2.2⟩)]
    congr 1
    conv_rhs => rw [← List.map_id lines]
    apply List.map_congr_left
    intro l hm
    exact (hl l hm).2.1
  have hd2 : decodeAll json p (scanFile errTooLong final.f).tokens = .ok recs := by
    rw [hscan]
    exact hd
  have herr : (scanFile errTooLong final.f).err = none := by rw [hscan]
  refine ⟨herr, runRecs (initState A) recs, replayLoop_of_decodeAll hd2 _, ?_, ?_⟩
  · rw [eventShape_runRecs, hs]
    simp [initState]
  · intro rangeOrder
    exact replayEvents_of_decodeAll hd2 herr rangeOrder

/-- Recording `RecordRequest(1, "f")`, `RecordRequest(2, "b")`,
`RecordResponse(1, "g")` on an empty log and replaying it gives back
`Call f`, `Call b`, `Return g` in that order. -/
theorem record_replay_round_trip_witness :
    runCalls toyJson ⟨[]⟩
        [(RecorderCall.request 1 [102], .done, .done),
         (RecorderCall.request 2 [98], .done, .done),
         (RecorderCall.response 1 [103], .done, .done)] =
      some ⟨[1, 1, 102, 10, 1, 2, 98, 10, 2, 1, 103, 10]⟩ ∧
    (scanFile "bufio.Scanner: token too long"
      [1, 1, 102, 10, 1, 2, 98, 10, 2, 1, 103, 10]).err = none ∧
    ∃ st : ReplayState Bytes,
      replayLoop toyJson toyParser (initState Bytes)
        (scanFile "bufio.Scanner: token too long"
          [1, 1, 102, 10, 1, 2, 98, 10, 2, 1, 103, 10]).tokens = .ok st ∧
      st.events.map eventShape =
        [(EventKind.CallEvent, some [102]), (EventKind.CallEvent, some [98]),
         (EventKind.ReturnEvent, some [103])] ∧
      ∀ rangeOrder : List (Int × Nat) → List (Int × Nat),
        replayEvents toyJson toyParser rangeOrder
            (scanFile "bufio.Scanner: token too long"
              [1, 1, 102, 10, 1, 2, 98, 10, 2, 1, 103, 10]) =
          .ok (st.events ++ (synthesized toyParser (rangeOrder st.procID)).map Prod.snd) :=
  ⟨rfl, record_replay_round_trip toyJson toyParser "bufio.Scanner: token too long"
    [(RecorderCall.request 1 [102], .done, .done),
     (RecorderCall.request 2 [98], .done, .done),
     (RecorderCall.response 1 [103], .done, .done)]
    ⟨[1, 1, 102, 10, 1, 2, 98, 10, 2, 1, 103, 10]⟩ toyJson_faithful
    (by
      intro c hc
      simp only [List.mem_cons, List.mem_singleton, List.not_mem_nil, or_false] at hc
      rcases hc with rfl | rfl | rfl
      · intro data h; cases h; rfl
      · intro data h; cases h; rfl
      · intro data h; cases h; rfl)
    (by
      intro c hc
      simp only [List.mem_cons, List.mem_singleton, List.not_mem_nil, or_false] at hc
      rcases hc with rfl | rfl | rfl
      · intro data line h ho; cases h; cases ho; decide
      · intro data line h ho; cases h; cases ho; decide
      · intro data line h ho; cases h; cases ho; decide)
    rfl⟩

/-! ## The stored ids while the counter has not wrapped -/

theorem numCallEvents_mono {V : Type} (recs : List (Rec V)) (s : ReplayState V) :
    numCallEvents s.events ≤ numCallEvents (runRecs s recs).events := by
  obtain ⟨t, ht⟩ := events_runRecs_prefix recs s
  rw [ht]
  unfold numCallEvents
  rw [List.countP_append]
  exact Nat.le_add_right _ _

theorem numCallEvents_applyRec_call {V : Type} (s : ReplayState V) (proc : Int)
    (value : Option V) :
    numCallEvents (applyRec s (Rec.call proc value)).events = numCallEvents s.events + 1 := by
  simp [applyRec, numCallEvents, List.countP_append]

theorem mapIds_mapDelete_sublist (m : List (Int × Nat)) (k : Int) :
    (mapIds (mapDelete m k)).Sublist (mapIds m) :=
  List.Sublist.map _ (List.filter_sublist m)

theorem pendingInv_runRecs {V : Type} (recs : List (Rec V)) (s : ReplayState V)
    (hc : CounterInv s) (hp : PendingInv s)
    (hb : numCallEvents (runRecs s recs).events ≤ uintSize) :
    PendingInv (runRecs s recs) := by
  induction recs generalizing s with
  | nil => exact hp
  | cons r rs ih =>
    rw [runRecs_cons] at hb ⊢
    refine ih _ (counterInv_applyRec s r hc) ?_ hb
    obtain ⟨hlt, hnd⟩ := hp
    cases r with
    | call proc value =>
      have hmono := numCallEvents_mono rs (applyRec s (Rec.call proc value))
      rw [numCallEvents_applyRec_call] at hmono
      have hn : numCallEvents s.events < uintSize := by omega
      have hid : s.id = numCallEvents s.events := by
        rw [hc.1, Nat.mod_eq_of_lt hn]
      constructor
      · intro e he
        rw [numCallEvents_applyRec_call]
        rcases List.mem_cons.mp he with rfl | he2
        · show s.id < _
          omega
        · have := hlt e (mem_mapDelete he2)
          omega
      · show (s.id :: mapIds (mapDelete s.procID proc)).Nodup
        refine List.nodup_cons.mpr ⟨?_, hnd.sublist (mapIds_mapDelete_sublist _ _)⟩
        intro hmem
        obtain ⟨e, he, heq⟩ := List.mem_map.mp hmem
        have := hlt e (mem_mapDelete he)
        omega
    | resolved proc v =>
      constructor
      · intro e he
        have := hlt e (mem_mapDelete he)
        have h2 : numCallEvents (applyRec s (Rec.resolved proc v)).events =
            numCallEvents s.events := by
          simp [applyRec, numCallEvents, List.countP_append]
        rw [h2]
        exact this
      · exact hnd.sublist (mapIds_mapDelete_sublist _ _)
    | unresolved proc => exact ⟨hlt, hnd⟩

theorem pendingInv_init (V : Type) : PendingInv (initState V) :=
  ⟨fun e he => (by cases he), List.nodup_nil⟩

theorem runRecs_of_loop {E A V : Type} {json : JsonCodec E A} {p : RecordParser E V}
    {lines : List Bytes} {recs : List (Rec V)} {st : ReplayState V}
    (hloop : replayLoop json p (initState V) lines = .ok st)
    (hdec : decodeAll json p lines = .ok recs) : st = runRecs (initState V) recs := by
  rw [replayLoop_of_decodeAll hdec] at hloop
  cases hloop
  rfl

/-! ## C16: the invariant of the replay loop -/

/-- C16 (replay-loop invariant). After the loop has processed any prefix of the
log, and while fewer than `2 ^ 64` Call events have been emitted (the counter
has not wrapped): the id counter equals the number of Call events emitted so
far; every id stored in the map is strictly less than the counter and is the id
of the Call event emitted for an Invoke record of that same proc; distinct procs
in the map hold distinct ids; and no proc has two entries. -/
theorem replay_loop_invariant {E A V : Type} (json : JsonCodec E A) (p : RecordParser E V)
    (preL : List Bytes) (pre : List (Rec V)) (st : ReplayState V)
    (hloop : replayLoop json p (initState V) preL = .ok st)
    (hdec : decodeAll json p preL = .ok pre)
    (hsize : numCallEvents st.events < uintSize) :
    st.id = numCallEvents st.events ∧
    (∀ e ∈ st.procID, e.2 < st.id ∧
      ∃ a v b, pre = a ++ Rec.call e.1 v :: b ∧
        st.events[(a.filterMap recEvent?).length]? =
          some { Kind := .CallEvent, Id := e.2, Value := v }) ∧
    (∀ e1 ∈ st.procID, ∀ e2 ∈ st.procID, e1.1 ≠ e2.1 → e1.2 ≠ e2.2) ∧
    (keys st.procID).Nodup := by
  have hst := runRecs_of_loop hloop hdec
  subst hst
  have hc := counterInv_runRecs pre (initState V) (counterInv_init V)
  have hp := pendingInv_runRecs pre (initState V) (counterInv_init V) (pendingInv_init V)
    (Nat.le_of_lt hsize)
  have hid : (runRecs (initState V) pre).id = numCallEvents (runRecs (initState V) pre).events := by
    rw [hc.1, Nat.mod_eq_of_lt hsize]
  refine ⟨hid, ?_, ?_, nodup_keys_runRecs pre (initState V) List.nodup_nil⟩
  · intro e he
    refine ⟨by rw [hid]; exact hp.1 e he, ?_⟩
    have hk : e.1 ∈ keys (runRecs (initState V) pre).procID := List.mem_map_of_mem Prod.fst he
    obtain ⟨pre1, v1, mid, hsplit, hcall, hres⟩ := pending_split e.1 pre hk
    have hent := entriesOf_after_last_call pre1 mid e.1 v1 hcall hres
    rw [← hsplit] at hent
    have hmem : e ∈ entriesOf e.1 (runRecs (initState V) pre).procID :=
      List.mem_filter.mpr ⟨he, by simp⟩
    rw [hent] at hmem
    have he2 : e.2 = (runRecs (initState V) pre1).id := by
      rw [List.mem_singleton.mp hmem]
    refine ⟨pre1, v1, mid, hsplit, ?_⟩
    have hget := getElem?_events_call pre1 mid e.1 v1 []
    rw [← hsplit, List.append_nil, length_events_runRecs_init] at hget
    rw [hget, he2]
  · intro e1 h1 e2 h2 hne heq
    apply hne
    have := List.inj_on_of_nodup_map hp.2 h1 h2 heq
    rw [this]

/-- After the prefix `[call proc1 "a", call proc2 "b", return proc1 "c"]` the
counter is `2` and the map holds `proc2 -> 1`. -/
theorem replay_loop_invariant_witness :
    replayLoop toyJson toyParser (initState Bytes) [[1, 1, 97], [1, 2, 98], [2, 1, 99]] =
      .ok { procID := [(2, 1)], id := 2,
            events := [⟨.CallEvent, 0, some [97]⟩, ⟨.CallEvent, 1, some [98]⟩,
              ⟨.ReturnEvent, 0, some [99]⟩] } ∧
    (2 : Nat) = numCallEvents ([⟨.CallEvent, 0, some [97]⟩, ⟨.CallEvent, 1, some [98]⟩,
      ⟨.ReturnEvent, 0, some [99]⟩] : List (Event Bytes)) ∧
    (∀ e ∈ ([(2, 1)] : List (Int × Nat)), e.2 < 2 ∧
      ∃ a v b, [Rec.call 1 (some [97]), Rec.call 2 (some [98]), Rec.resolved 1 ([99] : Bytes)] =
          a ++ Rec.call e.1 v :: b ∧
        ([⟨.CallEvent, 0, some [97]⟩, ⟨.CallEvent, 1, some [98]⟩,
          ⟨.ReturnEvent, 0, some [99]⟩] : List (Event Bytes))[(a.filterMap recEvent?).length]? =
          some { Kind := .CallEvent, Id := e.2, Value := v }) ∧
    (∀ e1 ∈ ([(2, 1)] : List (Int × Nat)), ∀ e2 ∈ ([(2, 1)] : List (Int × Nat)),
      e1.1 ≠ e2.1 → e1.2 ≠ e2.2) ∧
    (keys [(2, 1)]).Nodup :=
  ⟨rfl, replay_loop_invariant toyJson toyParser [[1, 1, 97], [1, 2, 98], [2, 1, 99]]
    [Rec.call 1 (some [97]), Rec.call 2 (some [98]), Rec.resolved 1 [99]]
    { procID := [(2, 1)], id := 2,
      events := [⟨.CallEvent, 0, some [97]⟩, ⟨.CallEvent, 1, some [98]⟩,
        ⟨.ReturnEvent, 0, some [99]⟩] }
    rfl rfl (by decide)⟩

/-! ## C11: a second Call overwrites the pending id -/

theorem counterInv_id_of_lt {V : Type} {s : ReplayState V} (hc : CounterInv s)
    (h : numCallEvents s.events < uintSize) : s.id = numCallEvents s.events := by
  rw [hc.1, Nat.mod_eq_of_lt h]

/-- Ids stored for the proc `P` never fall below `n` once all of them are at
least `n` and at least `n` Call events have been emitted. -/
theorem entries_ge_runRecs {V : Type} (P : Int) (n : Nat) (recs : List (Rec V))
    (s : ReplayState V) (hc : CounterInv s) (hn : n ≤ numCallEvents s.events)
    (hge : ∀ e ∈ s.procID, e.1 = P → n ≤ e.2)
    (hb : numCallEvents (runRecs s recs).events ≤ uintSize) :
    ∀ e ∈ (runRecs s recs).procID, e.1 = P → n ≤ e.2 := by
  induction recs generalizing s with
  | nil => exact hge
  | cons r rs ih =>
    rw [runRecs_cons] at hb ⊢
    have hmono := numCallEvents_mono rs (applyRec s r)
    cases r with
    | call proc value =>
      rw [numCallEvents_applyRec_call] at hmono
      have hid := counterInv_id_of_lt hc (by omega)
      refine ih _ (counterInv_applyRec s _ hc) (by rw [numCallEvents_applyRec_call]; omega)
        ?_ hb
      intro e he hP
      rcases List.mem_cons.mp he with rfl | he2
      · show n ≤ s.id
        omega
      · exact hge e (mem_mapDelete he2) hP
    | resolved proc w =>
      refine ih _ (counterInv_applyRec s _ hc) ?_ ?_ hb
      · have h2 : numCallEvents (applyRec s (Rec.resolved proc w)).events =
            numCallEvents s.events := by
          simp [applyRec, numCallEvents, List.countP_append]
        rw [h2]
        exact hn
      · intro e he hP
        exact hge e (mem_mapDelete he) hP
    | unresolved proc => exact ih _ hc hn hge hb

theorem entries_after_call_ge {V : Type} (s : ReplayState V) (P : Int) (v : Option V) :
    ∀ e ∈ (applyRec s (Rec.call P v)).procID, e.1 = P → s.id ≤ e.2 := by
  intro e he hP
  rcases List.mem_cons.mp he with rfl | he2
  · exact le_refl _
  · have h1 : e ∈ entriesOf P (mapDelete s.procID P) := List.mem_filter.mpr ⟨he2, by simpa using hP⟩
    rw [entriesOf_mapDelete_self] at h1
    cases h1

/-- C11, as stated, fails: in the log `[call proc1 "a", call proc1 "b", return
proc1 "x", return proc1 "y"]` the second Invoke record overwrites the pending id
`0` of proc1 with `1`; the last record is a later resolved Complete record of
proc1, and the Return emitted for it carries `0`, the previous id, not the
newer id `1`. -/
theorem double_call_overwrite_counterexample :
    decodeAll toyJson toyParser [[1, 1, 97], [1, 1, 98], [2, 1, 120], [2, 1, 121]] =
      .ok [Rec.call 1 (some [97]), Rec.call 1 (some [98]), Rec.resolved 1 [120],
        Rec.resolved 1 [121]] ∧
    replayLoop toyJson toyParser (initState Bytes) [[1, 1, 97]] =
      .ok { procID := [(1, 0)], id := 1, events := [⟨.CallEvent, 0, some [97]⟩] } ∧
    replayLoop toyJson toyParser (initState Bytes) [[1, 1, 97], [1, 1, 98]] =
      .ok { procID := [(1, 1)], id := 2,
            events := [⟨.CallEvent, 0, some [97]⟩, ⟨.CallEvent, 1, some [98]⟩] } ∧
    replayEvents toyJson toyParser id
        ⟨[[1, 1, 97], [1, 1, 98], [2, 1, 120], [2, 1, 121]], none⟩ =
      .ok [⟨.CallEvent, 0, some [97]⟩, ⟨.CallEvent, 1, some [98]⟩,
           ⟨.ReturnEvent, 1, some [120]⟩, ⟨.ReturnEvent, 0, some [121]⟩] ∧
    ([⟨.CallEvent, 0, some [97]⟩, ⟨.CallEvent, 1, some [98]⟩,
      ⟨.ReturnEvent, 1, some [120]⟩, ⟨.ReturnEvent, 0, some [121]⟩] :
        List (Event Bytes))[3]? = some ⟨.ReturnEvent, 0, some [121]⟩ :=
  ⟨rfl, rfl, rfl, rfl, rfl⟩

/-- C11 (double Call overwrite, amended). Let an Invoke record of the proc `P`
be read while `P` has the pending id `old`, in a replay that succeeds and emits
at most `2 ^ 64` Call events. Then the map holds exactly one entry for `P`
afterwards, with the new id, which is larger than `old`. The next resolved
Complete record of `P`, when no further Invoke record of `P` comes first,
carries the new id; when neither follows, the end-of-log synthesis for `P` does.
No later resolved Complete record of `P` that finds `P` pending, and no
synthesized event for `P`, carries `old`. -/
theorem double_call_overwrite {E A V : Type} (json : JsonCodec E A) (p : RecordParser E V)
    (rangeOrder : List (Int × Nat) → List (Int × Nat)) (sr : ScanResult E)
    (events : List (Event V)) (recs pre post : List (Rec V)) (P : Int) (v : Option V)
    (old : Nat)
    (hperm : ∀ m, (rangeOrder m).Perm m)
    (hok : replayEvents json p rangeOrder sr = .ok events)
    (hdec : decodeAll json p sr.tokens = .ok recs)
    (hsplit : recs = pre ++ Rec.call P v :: post)
    (hpend : (P, old) ∈ (runRecs (initState V) pre).procID)
    (hsize : numCallEvents events ≤ uintSize) :
    entriesOf P (runRecs (initState V) (pre ++ [Rec.call P v])).procID =
      [(P, (runRecs (initState V) pre).id)] ∧
    old < (runRecs (initState V) pre).id ∧
    (∀ (mid : List (Rec V)) (w : V) (rest : List (Rec V)),
      post = mid ++ Rec.resolved P w :: rest →
      (∀ r ∈ mid, isCallOf P r = false) → (∀ r ∈ mid, isResolvedOf P r = false) →
      events[((pre ++ Rec.call P v :: mid).filterMap recEvent?).length]? =
        some { Kind := .ReturnEvent, Id := (runRecs (initState V) pre).id, Value := some w }) ∧
    ((∀ r ∈ post, isCallOf P r = false) → (∀ r ∈ post, isResolvedOf P r = false) →
      (synthesized p (rangeOrder (runRecs (initState V) recs).procID)).filter
          (fun e => decide (e.1 = P)) =
        [(P, { Kind := .ReturnEvent, Id := (runRecs (initState V) pre).id,
               Value := p.OnNoopResponse })]) ∧
    (∀ (mid : List (Rec V)) (w : V) (rest : List (Rec V)),
      post = mid ++ Rec.resolved P w :: rest →
      P ∈ keys (runRecs (initState V) (pre ++ Rec.call P v :: mid)).procID →
      ∃ cid, events[((pre ++ Rec.call P v :: mid).filterMap recEvent?).length]? =
          some { Kind := .ReturnEvent, Id := cid, Value := some w } ∧ cid ≠ old) ∧
    (∀ e ∈ synthesized p (rangeOrder (runRecs (initState V) recs).procID),
      e.1 = P → e.2.Id ≠ old) := by
  obtain ⟨recs2, hdec2, _, hev⟩ := replayEvents_ok_inv hok
  rw [hdec] at hdec2
  cases hdec2
  -- the bound, at every state of the run
  have htotal : numCallEvents (runRecs (initState V) recs).events ≤ uintSize := by
    rw [hev, numCallEvents_append_synthesized] at hsize
    exact hsize
  have hrun : runRecs (initState V) recs = runRecs (applyRec (runRecs (initState V) pre) (Rec.call P v)) post := by
    rw [hsplit, runRecs_append, runRecs_cons]
  have hc0 : CounterInv (runRecs (initState V) pre) := counterInv_runRecs pre (initState V) (counterInv_init V)
  have hc1 : CounterInv (applyRec (runRecs (initState V) pre) (Rec.call P v)) := counterInv_applyRec (runRecs (initState V) pre) _ hc0
  have hn1 : numCallEvents (applyRec (runRecs (initState V) pre) (Rec.call P v)).events = numCallEvents (runRecs (initState V) pre).events + 1 :=
    numCallEvents_applyRec_call (runRecs (initState V) pre) P v
  have hb1 : numCallEvents (applyRec (runRecs (initState V) pre) (Rec.call P v)).events ≤ uintSize := by
    have := numCallEvents_mono post (applyRec (runRecs (initState V) pre) (Rec.call P v))
    rw [← hrun] at this
    omega
  have hid0 : (runRecs (initState V) pre).id = numCallEvents (runRecs (initState V) pre).events := counterInv_id_of_lt hc0 (by omega)
  have hp0 : PendingInv (runRecs (initState V) pre) :=
    pendingInv_runRecs pre (initState V) (counterInv_init V) (pendingInv_init V) (by omega)
  have hold : old < (runRecs (initState V) pre).id := by
    rw [hid0]
    exact hp0.1 (P, old) hpend
  -- ids stored for P after the overwrite are at least the new id
  have hge : ∀ (mid : List (Rec V)),
      numCallEvents (runRecs (applyRec (runRecs (initState V) pre) (Rec.call P v)) mid).events ≤ uintSize →
      ∀ e ∈ (runRecs (applyRec (runRecs (initState V) pre) (Rec.call P v)) mid).procID, e.1 = P → (runRecs (initState V) pre).id ≤ e.2 := by
    intro mid hb
    exact entries_ge_runRecs P (runRecs (initState V) pre).id mid (applyRec (runRecs (initState V) pre) (Rec.call P v)) hc1 (by omega) (entries_after_call_ge (runRecs (initState V) pre) P v) hb
  refine ⟨?_, hold, ?_, ?_, ?_, ?_⟩
  · rw [runRecs_append]
    exact entriesOf_mapStore_self P _ _
  · intro mid w rest hpost hcall hres
    have h1 := getElem?_events_resolved (pre ++ Rec.call P v :: mid) rest P w
      ((synthesized p (rangeOrder (runRecs (initState V) recs).procID)).map Prod.snd)
    have hs2 : recs = (pre ++ Rec.call P v :: mid) ++ Rec.resolved P w :: rest := by
      rw [hsplit, hpost]; simp
    rw [← hs2, ← hev, length_events_runRecs_init] at h1
    rw [h1, mapLookup_of_entriesOf (entriesOf_after_last_call pre mid P v hcall hres)]
  · intro hcall hres
    rw [synthesized_filter]
    have h1 := entriesOf_after_last_call pre post P v hcall hres
    rw [← hsplit] at h1
    rw [entriesOf_perm_singleton (hperm _) h1]
    rfl
  · intro mid w rest hpost hk
    have h1 := getElem?_events_resolved (pre ++ Rec.call P v :: mid) rest P w
      ((synthesized p (rangeOrder (runRecs (initState V) recs).procID)).map Prod.snd)
    have hs2 : recs = (pre ++ Rec.call P v :: mid) ++ Rec.resolved P w :: rest := by
      rw [hsplit, hpost]; simp
    rw [← hs2, ← hev, length_events_runRecs_init] at h1
    refine ⟨_, h1, ?_⟩
    have hmem := mapLookup_mem hk
    have hst : runRecs (initState V) (pre ++ Rec.call P v :: mid) = runRecs (applyRec (runRecs (initState V) pre) (Rec.call P v)) mid := by
      rw [runRecs_append, runRecs_cons]
    have hbm : numCallEvents (runRecs (applyRec (runRecs (initState V) pre) (Rec.call P v)) mid).events ≤ uintSize := by
      have hm := numCallEvents_mono (Rec.resolved P w :: rest) (runRecs (applyRec (runRecs (initState V) pre) (Rec.call P v)) mid)
      have : runRecs (runRecs (applyRec (runRecs (initState V) pre) (Rec.call P v)) mid) (Rec.resolved P w :: rest) =
          runRecs (initState V) recs := by
        rw [hrun, hpost, runRecs_append]
      rw [this] at hm
      omega
    rw [hst] at hmem ⊢
    have := hge mid hbm _ hmem rfl
    omega
  · intro e he hP
    simp only [synthesized, List.mem_map] at he
    obtain ⟨a, ha, rfl⟩ := he
    have ha2 : a ∈ (runRecs (applyRec (runRecs (initState V) pre) (Rec.call P v)) post).procID := by
      rw [← hrun]
      exact (hperm _).mem_iff.mp ha
    have := hge post (by rw [← hrun]; exact htotal) a ha2 hP
    show a.2 ≠ old
    omega

/-- In the log `[call proc1 "a", call proc1 "b", return proc1 "x"]` the second
Invoke record replaces the pending id `0` of proc1 by `1`, and the Return emitted
for the Complete record carries `1`. -/
theorem double_call_overwrite_witness :
    replayEvents toyJson toyParser id ⟨[[1, 1, 97], [1, 1, 98], [2, 1, 120]], none⟩ =
      .ok [⟨.CallEvent, 0, some [97]⟩, ⟨.CallEvent, 1, some [98]⟩,
           ⟨.ReturnEvent, 1, some [120]⟩] ∧
    entriesOf 1 (runRecs (initState Bytes)
        ([Rec.call 1 (some [97])] ++ [Rec.call 1 (some [98])])).procID =
      [(1, (runRecs (initState Bytes) [Rec.call 1 (some [97])]).id)] ∧
    0 < (runRecs (initState Bytes) [Rec.call 1 (some [97])]).id ∧
    ([⟨.CallEvent, 0, some [97]⟩, ⟨.CallEvent, 1, some [98]⟩,
      ⟨.ReturnEvent, 1, some [120]⟩] : List (Event Bytes))[
        (([Rec.call 1 (some [97])] ++ Rec.call 1 (some ([98] : Bytes)) :: []).filterMap
          recEvent?).length]? =
      some { Kind := .ReturnEvent, Id := (runRecs (initState Bytes) [Rec.call 1 (some [97])]).id,
             Value := some [120] } :=
  have h := double_call_overwrite toyJson toyParser id
    ⟨[[1, 1, 97], [1, 1, 98], [2, 1, 120]], none⟩
    [⟨.CallEvent, 0, some [97]⟩, ⟨.CallEvent, 1, some [98]⟩, ⟨.ReturnEvent, 1, some [120]⟩]
    [Rec.call 1 (some [97]), Rec.call 1 (some [98]), Rec.resolved 1 [120]]
    [Rec.call 1 (some [97])] [Rec.resolved 1 [120]] 1 (some [98]) 0
    (fun m => List.Perm.refl m) rfl rfl rfl (by decide) (by decide)
  ⟨rfl, h.1, h.2.1,
    h.2.2.1 [] [120] [] rfl (fun r hr => (by cases hr)) (fun r hr => (by cases hr))⟩

/-! ## C12: shape and order of the output -/

/-- C12 (shape and order of the output). The event sequence of a successful
replay is `F ++ S`. `F` are the events read from the file: one per record that
is not an unresolved Complete record, in file order, a Call with the decoded
value for an Invoke record and a Return with the decoded value for a resolved
Complete record. `S` are the synthesized events: Returns with the value
`OnNoopResponse()`, exactly one for each proc in the map at the end of the
log, carrying the id stored for that proc. -/
theorem output_shape {E A V : Type} (json : JsonCodec E A) (p : RecordParser E V)
    (rangeOrder : List (Int × Nat) → List (Int × Nat)) (sr : ScanResult E)
    (events : List (Event V)) (recs : List (Rec V))
    (hperm : ∀ m, (rangeOrder m).Perm m)
    (hok : replayEvents json p rangeOrder sr = .ok events)
    (hdec : decodeAll json p sr.tokens = .ok recs) :
    ∃ st : ReplayState V, replayLoop json p (initState V) sr.tokens = .ok st ∧
      events = st.events ++ (synthesized p (rangeOrder st.procID)).map Prod.snd ∧
      st.events.map eventShape = recs.filterMap recEvent? ∧
      (∀ e ∈ (synthesized p (rangeOrder st.procID)).map Prod.snd,
        e.Kind = .ReturnEvent ∧ e.Value = p.OnNoopResponse) ∧
      ((synthesized p (rangeOrder st.procID)).map (fun e => (e.1, e.2.Id))).Perm st.procID ∧
      ((synthesized p (rangeOrder st.procID)).map Prod.fst).Perm (keys st.procID) ∧
      (keys st.procID).Nodup := by
  obtain ⟨recs2, hdec2, _, hev⟩ := replayEvents_ok_inv hok
  rw [hdec] at hdec2
  cases hdec2
  refine ⟨runRecs (initState V) recs, replayLoop_of_decodeAll hdec _, hev, ?_, ?_, ?_, ?_,
    nodup_keys_runRecs recs (initState V) List.nodup_nil⟩
  · rw [eventShape_runRecs]
    simp [initState]
  · intro e he
    simp only [synthesized, List.map_map, List.mem_map, Function.comp] at he
    obtain ⟨a, _, rfl⟩ := he
    exact ⟨rfl, rfl⟩
  · have h1 : (synthesized p (rangeOrder (runRecs (initState V) recs).procID)).map
        (fun e => (e.1, e.2.Id)) = rangeOrder (runRecs (initState V) recs).procID := by
      unfold synthesized
      rw [List.map_map]
      conv_rhs => rw [← List.map_id (rangeOrder _)]
      apply List.map_congr_left
      intro a _
      rfl
    rw [h1]
    exact hperm _
  · have h1 : (synthesized p (rangeOrder (runRecs (initState V) recs).procID)).map Prod.fst =
        keys (rangeOrder (runRecs (initState V) recs).procID) := by
      simp [synthesized, keys]
    rw [h1]
    exact (hperm _).map _

/-- The log `[call proc1 "a", return proc1 <unresolved>, call proc2 "b", return
proc2 "c"]` replays to the file events `Call(0, a)`, `Call(1, b)`,
`Return(1, c)` followed by the synthesized `Return(0, noop)` for proc1. -/
theorem output_shape_witness :
    replayEvents toyJson toyParser id
        ⟨[[1, 1, 97], [2, 1], [1, 2, 98], [2, 2, 99]], none⟩ =
      .ok [⟨.CallEvent, 0, some [97]⟩, ⟨.CallEvent, 1, some [98]⟩,
           ⟨.ReturnEvent, 1, some [99]⟩, ⟨.ReturnEvent, 0, some [255]⟩] ∧
    ∃ st : ReplayState Bytes,
      replayLoop toyJson toyParser (initState Bytes)
        [[1, 1, 97], [2, 1], [1, 2, 98], [2, 2, 99]] = .ok st ∧
      ([⟨.CallEvent, 0, some [97]⟩, ⟨.CallEvent, 1, some [98]⟩,
        ⟨.ReturnEvent, 1, some [99]⟩, ⟨.ReturnEvent, 0, some [255]⟩] : List (Event Bytes)) =
        st.events ++ (synthesized toyParser (id st.procID)).map Prod.snd ∧
      st.events.map eventShape =
        [Rec.call 1 (some [97]), Rec.unresolved 1, Rec.call 2 (some [98]),
          Rec.resolved 2 [99]].filterMap recEvent? ∧
      (∀ e ∈ (synthesized toyParser (id st.procID)).map Prod.snd,
        e.Kind = .ReturnEvent ∧ e.Value = toyParser.OnNoopResponse) ∧
      ((synthesized toyParser (id st.procID)).map (fun e => (e.1, e.2.Id))).Perm st.procID ∧
      ((synthesized toyParser (id st.procID)).map Prod.fst).Perm (keys st.procID) ∧
      (keys st.procID).Nodup :=
  ⟨rfl, output_shape toyJson toyParser id
    ⟨[[1, 1, 97], [2, 1], [1, 2, 98], [2, 2, 99]], none⟩
    [⟨.CallEvent, 0, some [97]⟩, ⟨.CallEvent, 1, some [98]⟩,
      ⟨.ReturnEvent, 1, some [99]⟩, ⟨.ReturnEvent, 0, some [255]⟩]
    [Rec.call 1 (some [97]), Rec.unresolved 1, Rec.call 2 (some [98]), Rec.resolved 2 [99]]
    (fun m => List.Perm.refl m) rfl rfl⟩

/-! ## C13: the order of the synthesized tail -/

theorem nodup_ne_reverse {α : Type} (l : List α) (hn : l.Nodup) (hl : 2 ≤ l.length) :
    l ≠ l.reverse := by
  cases l with
  | nil => simp at hl
  | cons a t =>
    cases t with
    | nil => simp at hl
    | cons b u =>
      intro h
      have hnot : a ∉ b :: u := (List.nodup_cons.mp hn).1
      rw [List.reverse_cons] at h
      cases hr : (b :: u).reverse with
      | nil =>
        have := congrArg List.length hr
        simp at this
      | cons c w =>
        rw [hr] at h
        have hac : a = c := (List.cons.inj h).1
        have hc : c ∈ (b :: u).reverse := by rw [hr]; exact List.mem_cons_self _ _
        exact hnot (hac ▸ List.mem_reverse.mp hc)

theorem synthesized_ids {E V : Type} (p : RecordParser E V) (entries : List (Int × Nat)) :
    ((synthesized p entries).map Prod.snd).map (fun e => e.Id) = mapIds entries := by
  unfold synthesized mapIds
  rw [List.map_map, List.map_map]
  rfl

/-- C13 (synthesis order is the only nondeterminism). Two successful replays of
the same log with the same parser, under any two visiting orders of the map,
give event sequences with the same events read from the file, followed by
synthesized tails that are permutations of one another: Returns with the value
`OnNoopResponse()` whose ids are the ids pending at the end of the log. When two
or more procs are pending at the end of the log (and the counter has not
wrapped), two visiting orders give different event sequences. -/
theorem synthesis_order_only {E A V : Type} (json : JsonCodec E A) (p : RecordParser E V)
    (ro1 ro2 : List (Int × Nat) → List (Int × Nat)) (sr : ScanResult E)
    (ev1 ev2 : List (Event V))
    (hperm1 : ∀ m, (ro1 m).Perm m) (hperm2 : ∀ m, (ro2 m).Perm m)
    (hok1 : replayEvents json p ro1 sr = .ok ev1)
    (hok2 : replayEvents json p ro2 sr = .ok ev2) :
    ∃ st : ReplayState V, replayLoop json p (initState V) sr.tokens = .ok st ∧
      ev1 = st.events ++ (synthesized p (ro1 st.procID)).map Prod.snd ∧
      ev2 = st.events ++ (synthesized p (ro2 st.procID)).map Prod.snd ∧
      ((synthesized p (ro1 st.procID)).map Prod.snd).Perm
        ((synthesized p (ro2 st.procID)).map Prod.snd) ∧
      (((synthesized p (ro1 st.procID)).map Prod.snd).map (fun e => e.Id)).Perm
        (mapIds st.procID) ∧
      (∀ e ∈ (synthesized p (ro1 st.procID)).map Prod.snd,
        e.Kind = .ReturnEvent ∧ e.Value = p.OnNoopResponse) ∧
      (2 ≤ st.procID.length → numCallEvents st.events ≤ uintSize →
        ∃ ro3 ro4 : List (Int × Nat) → List (Int × Nat),
          (∀ m, (ro3 m).Perm m) ∧ (∀ m, (ro4 m).Perm m) ∧
          replayEvents json p ro3 sr ≠ replayEvents json p ro4 sr) := by
  obtain ⟨recs, hdec, herr, hev1⟩ := replayEvents_ok_inv hok1
  obtain ⟨recs2, hdec2, _, hev2⟩ := replayEvents_ok_inv hok2
  rw [hdec] at hdec2
  cases hdec2
  refine ⟨runRecs (initState V) recs, replayLoop_of_decodeAll hdec _, hev1, hev2, ?_, ?_, ?_, ?_⟩
  · exact (((hperm1 _).trans (hperm2 _).symm).map _).map _
  · rw [synthesized_ids]
    exact (hperm1 _).map _
  · intro e he
    simp only [synthesized, List.map_map, List.mem_map, Function.comp] at he
    obtain ⟨a, _, rfl⟩ := he
    exact ⟨rfl, rfl⟩
  · intro hlen hsize
    refine ⟨id, List.reverse, fun m => List.Perm.refl m, fun m => List.reverse_perm m, ?_⟩
    rw [replayEvents_of_decodeAll hdec herr, replayEvents_of_decodeAll hdec herr]
    intro heq
    have h1 := List.append_cancel_left (Except.ok.inj heq)
    have h2 := congrArg (List.map (fun e : Event V => e.Id)) h1
    rw [synthesized_ids, synthesized_ids] at h2
    have hp := pendingInv_runRecs recs (initState V) (counterInv_init V) (pendingInv_init V)
      hsize
    have hl : 2 ≤ (mapIds (runRecs (initState V) recs).procID).length := by
      simpa [mapIds] using hlen
    apply nodup_ne_reverse _ hp.2 hl
    simpa [mapIds] using h2

/-- The log `[call proc1 "a", call proc2 "b"]` leaves two procs pending: visiting
the map in one order or in the reverse order gives the same two Call events
followed by the two synthesized Returns in either order. -/
theorem synthesis_order_only_witness :
    replayEvents toyJson toyParser id ⟨[[1, 1, 97], [1, 2, 98]], none⟩ =
      .ok [⟨.CallEvent, 0, some [97]⟩, ⟨.CallEvent, 1, some [98]⟩,
           ⟨.ReturnEvent, 1, some [255]⟩, ⟨.ReturnEvent, 0, some [255]⟩] ∧
    replayEvents toyJson toyParser List.reverse ⟨[[1, 1, 97], [1, 2, 98]], none⟩ =
      .ok [⟨.CallEvent, 0, some [97]⟩, ⟨.CallEvent, 1, some [98]⟩,
           ⟨.ReturnEvent, 0, some [255]⟩, ⟨.ReturnEvent, 1, some [255]⟩] ∧
    ∃ st : ReplayState Bytes,
      replayLoop toyJson toyParser (initState Bytes) [[1, 1, 97], [1, 2, 98]] = .ok st ∧
      ([⟨.CallEvent, 0, some [97]⟩, ⟨.CallEvent, 1, some [98]⟩,
        ⟨.ReturnEvent, 1, some [255]⟩, ⟨.ReturnEvent, 0, some [255]⟩] : List (Event Bytes)) =
        st.events ++ (synthesized toyParser (id st.procID)).map Prod.snd ∧
      ([⟨.CallEvent, 0, some [97]⟩, ⟨.CallEvent, 1, some [98]⟩,
        ⟨.ReturnEvent, 0, some [255]⟩, ⟨.ReturnEvent, 1, some [255]⟩] : List (Event Bytes)) =
        st.events ++ (synthesized toyParser (List.reverse st.procID)).map Prod.snd ∧
      ((synthesized toyParser (id st.procID)).map Prod.snd).Perm
        ((synthesized toyParser (List.reverse st.procID)).map Prod.snd) ∧
      (((synthesized toyParser (id st.procID)).map Prod.snd).map (fun e => e.Id)).Perm
        (mapIds st.procID) ∧
      (∀ e ∈ (synthesized toyParser (id st.procID)).map Prod.snd,
        e.Kind = .ReturnEvent ∧ e.Value = toyParser.OnNoopResponse) ∧
      (2 ≤ st.procID.length → numCallEvents st.events ≤ uintSize →
        ∃ ro3 ro4 : List (Int × Nat) → List (Int × Nat),
          (∀ m, (ro3 m).Perm m) ∧ (∀ m, (ro4 m).Perm m) ∧
          replayEvents toyJson toyParser ro3 ⟨[[1, 1, 97], [1, 2, 98]], none⟩ ≠
            replayEvents toyJson toyParser ro4 ⟨[[1, 1, 97], [1, 2, 98]], none⟩) :=
  ⟨rfl, rfl, synthesis_order_only toyJson toyParser id List.reverse
    ⟨[[1, 1, 97], [1, 2, 98]], none⟩
    [⟨.CallEvent, 0, some [97]⟩, ⟨.CallEvent, 1, some [98]⟩,
      ⟨.ReturnEvent, 1, some [255]⟩, ⟨.ReturnEvent, 0, some [255]⟩]
    [⟨.CallEvent, 0, some [97]⟩, ⟨.CallEvent, 1, some [98]⟩,
      ⟨.ReturnEvent, 0, some [255]⟩, ⟨.ReturnEvent, 1, some [255]⟩]
    (fun m => List.Perm.refl m) (fun m => List.reverse_perm m) rfl rfl⟩

/-! ## C14: well-formed histories pair up -/

theorem returnIds_append {V : Type} (xs ys : List (Event V)) :
    returnIds (xs ++ ys) = returnIds xs ++ returnIds ys := by
  simp [returnIds, List.filter_append]

theorem returnIds_synthesized {E V : Type} (p : RecordParser E V)
    (entries : List (Int × Nat)) :
    returnIds ((synthesized p entries).map Prod.snd) = mapIds entries := by
  unfold returnIds
  rw [List.filter_eq_self.mpr, synthesized_ids]
  intro e he
  simp only [synthesized, List.map_map, List.mem_map, Function.comp] at he
  obtain ⟨a, _, rfl⟩ := he
  simp

theorem numCallEvents_runRecs_init {V : Type} (recs : List (Rec V)) :
    numCallEvents (runRecs (initState V) recs).events = numInvoke recs := by
  have h := congrArg (List.countP (fun x : EventKind × Option V => decide (x.1 = .CallEvent)))
    (eventShape_runRecs recs (initState V))
  rw [List.countP_map] at h
  simp only [initState, List.map_nil, List.nil_append] at h
  have h1 : numCallEvents (runRecs (initState V) recs).events =
      List.countP ((fun x : EventKind × Option V => decide (x.1 = .CallEvent)) ∘ eventShape)
        (runRecs { procID := [], id := 0, events := [] } recs).events := rfl
  rw [h1, h]
  unfold numInvoke
  clear h h1
  induction recs with
  | nil => rfl
  | cons r rs ih =>
    cases r <;> simp [recEvent?, isInvoke, List.filterMap_cons, List.countP_cons, ih]

theorem length_eq_calls_add_returns {V : Type} (events : List (Event V)) :
    events.length = numCallEvents events + numReturnEvents events := by
  unfold numCallEvents numReturnEvents
  rw [List.length_eq_countP_add_countP (fun e : Event V => decide (e.Kind = .CallEvent))]
  congr 1
  apply List.countP_congr
  intro e _
  cases hk : e.Kind <;> simp

theorem mapDelete_of_not_mem {m : List (Int × Nat)} {k : Int} (h : k ∉ keys m) :
    mapDelete m k = m := by
  unfold mapDelete
  rw [List.filter_eq_self]
  intro e he
  have : e.1 ≠ k := fun hk => h (hk ▸ List.mem_map_of_mem Prod.fst he)
  simpa using this

theorem mapIds_perm_delete {m : List (Int × Nat)} {k : Int} (hn : (keys m).Nodup)
    (h : k ∈ keys m) : (mapIds m).Perm (mapLookup m k :: mapIds (mapDelete m k)) := by
  induction m with
  | nil => cases h
  | cons hd tl ih =>
    obtain ⟨a, b⟩ := hd
    have hn2 : a ∉ keys tl ∧ (keys tl).Nodup := List.nodup_cons.mp hn
    by_cases hk : a = k
    · subst hk
      have h1 : mapLookup ((a, b) :: tl) a = b := by simp [mapLookup, List.lookup]
      have h2 : mapDelete ((a, b) :: tl) a = tl := by
        have := mapDelete_of_not_mem hn2.1
        unfold mapDelete at this ⊢
        rw [List.filter_cons_of_neg (by simp)]
        exact this
      rw [h1, h2]
      exact List.Perm.refl _
    · have hk2 : (k == a) = false := by simpa using (fun hh : k = a => hk hh.symm)
      have h1 : mapLookup ((a, b) :: tl) k = mapLookup tl k := by
        simp [mapLookup, List.lookup, hk2]
      have h2 : mapDelete ((a, b) :: tl) k = (a, b) :: mapDelete tl k := by
        unfold mapDelete
        rw [List.filter_cons]
        simp [hk]
      have h3 : k ∈ keys tl := by
        rcases List.mem_cons.mp h with h4 | h4
        · exact absurd h4.symm hk
        · exact h4
      rw [h1, h2]
      show (b :: mapIds tl).Perm (mapLookup tl k :: b :: mapIds (mapDelete tl k))
      exact ((ih hn2.2 h3).cons b).trans (List.Perm.swap _ _ _)

theorem returnInv_runRecs {V : Type} (recs : List (Rec V)) (s : ReplayState V)
    (hc : CounterInv s) (hk : (keys s.procID).Nodup) (hr : ReturnInv s)
    (ho : noOrphan (keys s.procID) recs = true)
    (hd : noDoubleCall (keys s.procID) recs = true)
    (hb : numCallEvents (runRecs s recs).events ≤ uintSize) :
    ReturnInv (runRecs s recs) := by
  induction recs generalizing s with
  | nil => exact hr
  | cons r rs ih =>
    have ho2 : noOrphan (pendingAfter (keys s.procID) r) rs = true := by
      cases r <;> simp only [noOrphan, Bool.and_eq_true] at ho <;> exact ho.2
    have hd2 : noDoubleCall (pendingAfter (keys s.procID) r) rs = true := by
      cases r <;> simp only [noDoubleCall, Bool.and_eq_true] at hd <;> exact hd.2
    rw [runRecs_cons] at hb ⊢
    refine ih _ (counterInv_applyRec s r hc) (nodup_keys_applyRec s r hk) ?_
      (by rw [keys_applyRec]; exact ho2) (by rw [keys_applyRec]; exact hd2) hb
    unfold ReturnInv at hr ⊢
    cases r with
    | call proc value =>
      simp only [noDoubleCall, Bool.and_eq_true, decide_eq_true_eq] at hd
      have hmono := numCallEvents_mono rs (applyRec s (Rec.call proc value))
      rw [numCallEvents_applyRec_call] at hmono
      have hid := counterInv_id_of_lt hc (by omega)
      rw [numCallEvents_applyRec_call, List.range_succ]
      have hev : returnIds (applyRec s (Rec.call proc value)).events = returnIds s.events := by
        simp [applyRec, returnIds, List.filter_append]
      have hmap : mapIds (applyRec s (Rec.call proc value)).procID =
          s.id :: mapIds s.procID := by
        show s.id :: mapIds (mapDelete s.procID proc) = _
        rw [mapDelete_of_not_mem hd.1]
      rw [hev, hmap, hid]
      exact (List.perm_middle.trans (hr.cons _)).trans (List.perm_append_singleton _ _).symm
    | resolved proc v =>
      simp only [noOrphan, Bool.and_eq_true, decide_eq_true_eq] at ho
      have hn : numCallEvents (applyRec s (Rec.resolved proc v)).events =
          numCallEvents s.events := by
        simp [applyRec, numCallEvents, List.countP_append]
      have hev : returnIds (applyRec s (Rec.resolved proc v)).events =
          returnIds s.events ++ [mapLookup s.procID proc] := by
        simp [applyRec, returnIds, List.filter_append]
      rw [hn, hev, List.append_assoc]
      refine List.Perm.trans ?_ hr
      exact List.Perm.append_left _ (mapIds_perm_delete hk ho.1).symm
    | unresolved proc => exact hr

theorem callIds_runRecs_init {V : Type} (recs : List (Rec V))
    (hb : numCallEvents (runRecs (initState V) recs).events ≤ uintSize) :
    callIds (runRecs (initState V) recs).events =
      List.range (numCallEvents (runRecs (initState V) recs).events) := by
  rw [(counterInv_runRecs recs (initState V) (counterInv_init V)).2]
  conv_rhs => rw [← List.map_id (List.range _)]
  apply List.map_congr_left
  intro k hk
  have : k < uintSize := lt_of_lt_of_le (List.mem_range.mp hk) hb
  simp [Nat.mod_eq_of_lt this]

/-- C14 (well-formed histories pair up exactly). On a log in which each proc has
at most one outstanding operation at a time (no Invoke for a proc that is
pending, no resolved Complete for a proc that is not pending), a successful
replay with `n` Invoke records (`n` at most `2 ^ 64`, so that the counter has
not wrapped) yields `2 * n` events; the ids of the Call events are
`0, ..., n - 1` in order and the ids of the Return events are `0, ..., n - 1` in
some order, so every id below `n` occurs in exactly one Call event and exactly
one Return event; and every Return comes after the Call with its id. -/
theorem wellformed_pairs {E A V : Type} (json : JsonCodec E A) (p : RecordParser E V)
    (rangeOrder : List (Int × Nat) → List (Int × Nat)) (sr : ScanResult E)
    (events : List (Event V)) (recs : List (Rec V))
    (hperm : ∀ m, (rangeOrder m).Perm m)
    (hok : replayEvents json p rangeOrder sr = .ok events)
    (hdec : decodeAll json p sr.tokens = .ok recs)
    (hdouble : noDoubleCall [] recs = true)
    (horphan : noOrphan [] recs = true)
    (hsize : numInvoke recs ≤ uintSize) :
    events.length = 2 * numInvoke recs ∧
    callIds events = List.range (numInvoke recs) ∧
    (returnIds events).Perm (List.range (numInvoke recs)) ∧
    (∀ k, k < numInvoke recs →
      (callIds events).count k = 1 ∧ (returnIds events).count k = 1) ∧
    ReturnsPreceded events := by
  obtain ⟨recs2, hdec2, _, hev⟩ := replayEvents_ok_inv hok
  rw [hdec] at hdec2
  cases hdec2
  have hn := numCallEvents_runRecs_init recs
  have hb : numCallEvents (runRecs (initState V) recs).events ≤ uintSize := by
    rw [hn]; exact hsize
  have hcalls : numCallEvents events = numInvoke recs := by
    rw [hev, numCallEvents_append_synthesized, hn]
  have hbal : Balanced (runRecs (initState V) recs) :=
    balanced_runRecs recs (initState V) ⟨List.nodup_nil, rfl⟩ horphan hdouble
  have hrets : numReturnEvents events = numInvoke recs := by
    have h1 : numReturnEvents events =
        numReturnEvents (runRecs (initState V) recs).events +
          (runRecs (initState V) recs).procID.length := by
      rw [hev]
      unfold numReturnEvents
      rw [List.countP_append]
      have := numReturnEvents_synthesized p (rangeOrder (runRecs (initState V) recs).procID)
      unfold numReturnEvents at this
      rw [this, (hperm _).length_eq]
    rw [h1, ← hbal.2, hn]
  have hcid : callIds events = List.range (numInvoke recs) := by
    rw [hev, callIds_append_synthesized, callIds_runRecs_init recs hb, hn]
  have hrid : (returnIds events).Perm (List.range (numInvoke recs)) := by
    have hinv : ReturnInv (runRecs (initState V) recs) :=
      returnInv_runRecs recs (initState V) (counterInv_init V) List.nodup_nil
        (List.Perm.refl _) horphan hdouble hb
    unfold ReturnInv at hinv
    rw [hn] at hinv
    rw [hev, returnIds_append, returnIds_synthesized]
    exact (List.Perm.append_left _ ((hperm _).map _)).trans hinv
  refine ⟨?_, hcid, hrid, ?_, ?_⟩
  · rw [length_eq_calls_add_returns, hcalls, hrets]
    omega
  · intro k hk
    have h1 : (List.range (numInvoke recs)).count k = 1 :=
      List.count_eq_one_of_mem (List.nodup_range _) (List.mem_range.mpr hk)
    exact ⟨by rw [hcid]; exact h1, by rw [hrid.count_eq]; exact h1⟩
  · have hinit : MapFromCalls (initState V) := by
      intro e he
      cases he
    have hpinit : ReturnsPreceded (initState V).events := by
      intro j e hj
      simp [initState] at hj
    have hm := mapFromCalls_runRecs recs (initState V) hinit
    have hp := returnsPreceded_runRecs recs (initState V) hinit hpinit horphan
    rw [hev]
    refine returnsPreceded_append _ _ hp ?_
    intro e he _
    simp only [synthesized, List.map_map, List.mem_map, Function.comp] at he
    obtain ⟨a, ha, rfl⟩ := he
    exact hm a ((hperm _).mem_iff.mp ha)

/-- The well-formed log `[call proc1 "a", call proc2 "b", return proc2 "c"]` has
two Invoke records: its replay has four events, the Call ids `0, 1` and the
Return ids `1, 0`. -/
theorem wellformed_pairs_witness :
    replayEvents toyJson toyParser id ⟨[[1, 1, 97], [1, 2, 98], [2, 2, 99]], none⟩ =
      .ok [⟨.CallEvent, 0, some [97]⟩, ⟨.CallEvent, 1, some [98]⟩,
           ⟨.ReturnEvent, 1, some [99]⟩, ⟨.ReturnEvent, 0, some [255]⟩] ∧
    ([⟨.CallEvent, 0, some [97]⟩, ⟨.CallEvent, 1, some [98]⟩,
      ⟨.ReturnEvent, 1, some [99]⟩, ⟨.ReturnEvent, 0, some [255]⟩] :
        List (Event Bytes)).length =
      2 * numInvoke [Rec.call 1 (some [97]), Rec.call 2 (some [98]),
        Rec.resolved 2 ([99] : Bytes)] ∧
    callIds ([⟨.CallEvent, 0, some [97]⟩, ⟨.CallEvent, 1, some [98]⟩,
      ⟨.ReturnEvent, 1, some [99]⟩, ⟨.ReturnEvent, 0, some [255]⟩] : List (Event Bytes)) =
      List.range (numInvoke [Rec.call 1 (some [97]), Rec.call 2 (some [98]),
        Rec.resolved 2 ([99] : Bytes)]) ∧
    (returnIds ([⟨.CallEvent, 0, some [97]⟩, ⟨.CallEvent, 1, some [98]⟩,
      ⟨.ReturnEvent, 1, some [99]⟩, ⟨.ReturnEvent, 0, some [255]⟩] : List (Event Bytes))).Perm
      (List.range (numInvoke [Rec.call 1 (some [97]), Rec.call 2 (some [98]),
        Rec.resolved 2 ([99] : Bytes)])) ∧
    ReturnsPreceded ([⟨.CallEvent, 0, some [97]⟩, ⟨.CallEvent, 1, some [98]⟩,
      ⟨.ReturnEvent, 1, some [99]⟩, ⟨.ReturnEvent, 0, some [255]⟩] : List (Event Bytes)) :=
  have h := wellformed_pairs toyJson toyParser id
    ⟨[[1, 1, 97], [1, 2, 98], [2, 2, 99]], none⟩
    [⟨.CallEvent, 0, some [97]⟩, ⟨.CallEvent, 1, some [98]⟩,
      ⟨.ReturnEvent, 1, some [99]⟩, ⟨.ReturnEvent, 0, some [255]⟩]
    [Rec.call 1 (some [97]), Rec.call 2 (some [98]), Rec.resolved 2 [99]]
    (fun m => List.Perm.refl m) rfl rfl rfl rfl (by decide)
  ⟨rfl, h.1, h.2.1, h.2.2.1, h.2.2.2.2⟩

/-! ## C15: an orphaned Complete is accepted with id 0 -/

theorem classify_resolved {E A V : Type} (json : JsonCodec E A) (p : RecordParser E V)
    (line : Bytes) (op : operation) (v : V) (hun : json.Unmarshal line = .ok op)
    (hact : op.Action ≠ InvokeOperation) (hresp : p.OnResponse op.Data = .ok (some v)) :
    classify json p line = .ok (Rec.resolved op.Proc v) := by
  unfold classify
  rw [hun]
  simp only [hact, if_false]
  rw [hresp]

theorem classify_call {E A V : Type} (json : JsonCodec E A) (p : RecordParser E V)
    (line : Bytes) (op : operation) (w : Option V) (hun : json.Unmarshal line = .ok op)
    (hact : op.Action = InvokeOperation) (hreq : p.OnRequest op.Data = .ok w) :
    classify json p line = .ok (Rec.call op.Proc w) := by
  unfold classify
  rw [hun]
  simp only [hact, if_true]
  rw [hreq]

theorem mapLookup_of_not_mem {m : List (Int × Nat)} {k : Int} (h : k ∉ keys m) :
    mapLookup m k = 0 := by
  induction m with
  | nil => rfl
  | cons hd tl ih =>
    obtain ⟨a, b⟩ := hd
    have hka : k ≠ a := fun hk => h (hk ▸ List.mem_cons_self _ _)
    have hk2 : (k == a) = false := by simpa using hka
    have h3 : mapLookup ((a, b) :: tl) k = mapLookup tl k := by
      simp [mapLookup, List.lookup, hk2]
    rw [h3]
    exact ih (fun hm => h (List.mem_cons_of_mem _ hm))

theorem applyRec_orphan {V : Type} (s : ReplayState V) (P : Int) (v : V)
    (h : P ∉ keys s.procID) :
    applyRec s (Rec.resolved P v) =
      { procID := s.procID, id := s.id,
        events := s.events ++ [{ Kind := .ReturnEvent, Id := 0, Value := some v }] } := by
  simp only [applyRec, mapLookup_of_not_mem h, mapDelete_of_not_mem h]

/-- C15 (orphaned Complete is silently accepted with id 0). A resolved Complete
record read for a proc that has no entry in the map does not fail: the
iteration emits a Return event with id `0` and leaves the map and the id counter
as they were. So a log that consists of that record alone replays to a single
Return with id `0` and no Call at all, and after one Invoke record of another
proc the emitted Return carries `0`, the id of that other proc's Call, which is
the first Call of the log. -/
theorem orphaned_complete {E A V : Type} (json : JsonCodec E A) (p : RecordParser E V)
    (rangeOrder : List (Int × Nat) → List (Int × Nat)) (s : ReplayState V)
    (line : Bytes) (op : operation) (v : V)
    (hperm : ∀ m, (rangeOrder m).Perm m)
    (hun : json.Unmarshal line = .ok op)
    (hact : op.Action ≠ InvokeOperation)
    (hresp : p.OnResponse op.Data = .ok (some v))
    (habsent : op.Proc ∉ keys s.procID) :
    replayStep json p s line =
      .ok { procID := s.procID, id := s.id,
            events := s.events ++ [{ Kind := .ReturnEvent, Id := 0, Value := some v }] } ∧
    replayEvents json p rangeOrder ⟨[line], none⟩ =
      .ok [{ Kind := .ReturnEvent, Id := 0, Value := some v }] ∧
    (∀ (cl : Bytes) (cop : operation) (w : Option V),
      json.Unmarshal cl = .ok cop → cop.Action = InvokeOperation →
      p.OnRequest cop.Data = .ok w → cop.Proc ≠ op.Proc →
      replayEvents json p rangeOrder ⟨[cl, line], none⟩ =
        .ok [{ Kind := .CallEvent, Id := 0, Value := w },
             { Kind := .ReturnEvent, Id := 0, Value := some v },
             { Kind := .ReturnEvent, Id := 0, Value := p.OnNoopResponse }]) := by
  have hcl := classify_resolved json p line op v hun hact hresp
  refine ⟨?_, ?_, ?_⟩
  · rw [replayStep_eq_classify, hcl]
    simp only
    rw [applyRec_orphan s op.Proc v habsent]
  · have hd : decodeAll json p (⟨[line], none⟩ : ScanResult E).tokens =
        .ok [Rec.resolved op.Proc v] := by
      simp only [decodeAll, hcl]
    rw [replayEvents_of_decodeAll hd rfl]
    have hrun : runRecs (initState V) [Rec.resolved op.Proc v] =
        { procID := [], id := 0,
          events := [{ Kind := .ReturnEvent, Id := 0, Value := some v }] } := by
      rw [runRecs_cons, runRecs_nil, applyRec_orphan _ _ _ (by simp [initState, keys])]
      rfl
    rw [hrun]
    simp only
    rw [(hperm []).eq_nil]
    rfl
  · intro cl cop w hcun hcact hreq hne
    have hccl := classify_call json p cl cop w hcun hcact hreq
    have hd : decodeAll json p (⟨[cl, line], none⟩ : ScanResult E).tokens =
        .ok [Rec.call cop.Proc w, Rec.resolved op.Proc v] := by
      simp only [decodeAll, hccl, hcl]
    rw [replayEvents_of_decodeAll hd rfl]
    have hk : op.Proc ∉ keys (applyRec (initState V) (Rec.call cop.Proc w)).procID := by
      simp only [applyRec, initState, mapStore, mapDelete, keys, List.filter_nil, List.map_cons,
        List.map_nil, List.mem_singleton]
      exact fun h => hne h.symm
    have hrun : runRecs (initState V) [Rec.call cop.Proc w, Rec.resolved op.Proc v] =
        { procID := [(cop.Proc, 0)], id := 1 % uintSize,
          events := [{ Kind := .CallEvent, Id := 0, Value := w },
                     { Kind := .ReturnEvent, Id := 0, Value := some v }] } := by
      rw [runRecs_cons, runRecs_cons, runRecs_nil, applyRec_orphan _ _ _ hk]
      rfl
    rw [hrun]
    simp only
    rw [List.perm_singleton.mp (hperm [(cop.Proc, 0)])]
    rfl

/-- With the toy parser: the record `return proc2 "x"` read when only proc1 is
pending is emitted as `Return(0, x)` and changes neither the map nor the
counter. -/
theorem orphaned_complete_witness :
    replayStep toyJson toyParser
        { procID := [(1, 0)], id := 1, events := [⟨.CallEvent, 0, some [97]⟩] }
        [2, 2, 120] =
      .ok { procID := [(1, 0)], id := 1,
            events := [⟨.CallEvent, 0, some [97]⟩] ++
              [{ Kind := .ReturnEvent, Id := 0, Value := some [120] }] } ∧
    replayEvents toyJson toyParser id ⟨[[2, 2, 120]], none⟩ =
      .ok [{ Kind := .ReturnEvent, Id := 0, Value := some [120] }] ∧
    replayEvents toyJson toyParser id ⟨[[1, 1, 97], [2, 2, 120]], none⟩ =
      .ok [{ Kind := .CallEvent, Id := 0, Value := some [97] },
           { Kind := .ReturnEvent, Id := 0, Value := some [120] },
           { Kind := .ReturnEvent, Id := 0, Value := toyParser.OnNoopResponse }] :=
  have h := orphaned_complete toyJson toyParser id
    { procID := [(1, 0)], id := 1, events := [⟨.CallEvent, 0, some [97]⟩] }
    [2, 2, 120] { Action := "return", Proc := 2, Data := [120] } [120]
    (fun m => List.Perm.refl m) rfl (by decide) rfl (by decide)
  ⟨h.1, h.2.1,
    h.2.2 [1, 1, 97] { Action := "call", Proc := 1, Data := [97] } (some [97]) rfl rfl rfl
      (by decide)⟩

/-! ## C17: dispatch on the action -/

/-- C17 (action dispatch is call versus everything else). For a line that
`json.Unmarshal` accepts: if its action is any string other than "call" (so also
"return", the empty string of a missing action, or an unknown string), the
iteration is that of a Complete record: it is decided by `OnResponse` alone, and
emits a Return event when the decode is resolved; if its action is exactly
"call", the iteration is decided by `OnRequest` alone and emits a Call event. -/
theorem action_dispatch {E A V : Type} (json : JsonCodec E A) (p : RecordParser E V)
    (s : ReplayState V) (line : Bytes) (op : operation)
    (hun : json.Unmarshal line = .ok op) :
    (op.Action ≠ "call" →
      replayStep json p s line =
        match p.OnResponse op.Data with
        | .error err => .error err
        | .ok none => .ok s
        | .ok (some v) =>
          .ok { events := s.events ++
                  [{ Kind := .ReturnEvent, Id := mapLookup s.procID op.Proc, Value := some v }]
                procID := mapDelete s.procID op.Proc
                id := s.id }) ∧
    (op.Action = "call" →
      replayStep json p s line =
        match p.OnRequest op.Data with
        | .error err => .error err
        | .ok value =>
          .ok { events := s.events ++ [{ Kind := .CallEvent, Id := s.id, Value := value }]
                procID := mapStore s.procID op.Proc s.id
                id := (s.id + 1) % uintSize }) ∧
    ReturnOperation ≠ "call" ∧ ("" : String) ≠ "call" ∧ InvokeOperation = "call" := by
  refine ⟨?_, ?_, by decide, by decide, rfl⟩
  · intro hact
    have hact2 : op.Action ≠ InvokeOperation := hact
    unfold replayStep
    rw [hun]
    simp only [hact2, if_false]
  · intro hact
    have hact2 : op.Action = InvokeOperation := hact
    unfold replayStep
    rw [hun]
    simp only [hact2, if_true]

/-- A record with the unknown action "noise" is processed as a Complete record:
with a resolved payload it emits a Return event and removes the proc from the
map. -/
theorem action_dispatch_witness :
    replayStep toyJson toyParser
        { procID := [(1, 0)], id := 1, events := [⟨.CallEvent, 0, some [97]⟩] }
        [3, 1, 120] =
      .ok { procID := [], id := 1,
            events := [⟨.CallEvent, 0, some [97]⟩, ⟨.ReturnEvent, 0, some [120]⟩] } ∧
    replayStep toyJson toyParser
        { procID := [(1, 0)], id := 1, events := [⟨.CallEvent, 0, some [97]⟩] }
        [3, 1, 120] =
      match toyParser.OnResponse [120] with
      | .error err => .error err
      | .ok none =>
        .ok { procID := [(1, 0)], id := 1, events := [⟨.CallEvent, 0, some [97]⟩] }
      | .ok (some v) =>
        .ok { events := [⟨.CallEvent, 0, some [97]⟩] ++
                [{ Kind := .ReturnEvent, Id := mapLookup [(1, 0)] 1, Value := some v }]
              procID := mapDelete [(1, 0)] 1
              id := 1 } :=
  ⟨rfl, (action_dispatch toyJson toyParser
    { procID := [(1, 0)], id := 1, events := [⟨.CallEvent, 0, some [97]⟩] }
    [3, 1, 120] { Action := "noise", Proc := 1, Data := [120] } rfl).1 (by decide)⟩

/-! ## C18: a failed serialization writes nothing -/

/-- C18 (recorder atomicity on serialization failure). If `json.Marshal` fails
on the payload, or on the record that wraps it, `RecordRequest` and
`RecordResponse` return that error and the log is exactly what it was before the
call, whatever the file would have done on a write. -/
theorem serialization_failure_writes_nothing {E A : Type} (json : JsonCodec E A)
    (r : Recorder) (proc : Int) (op : A) (w1 w2 : WriteOutcome E) (err : E) :
    (json.MarshalValue op = .error err →
      RecordRequest json r proc op w1 w2 = (r, some err) ∧
      RecordResponse json r proc op w1 w2 = (r, some err)) ∧
    (∀ data, json.MarshalValue op = .ok data →
      json.MarshalOperation { Action := "call", Proc := proc, Data := data } = .error err →
      RecordRequest json r proc op w1 w2 = (r, some err)) ∧
    (∀ data, json.MarshalValue op = .ok data →
      json.MarshalOperation { Action := "return", Proc := proc, Data := data } = .error err →
      RecordResponse json r proc op w1 w2 = (r, some err)) := by
  refine ⟨?_, ?_, ?_⟩
  · intro h
    constructor
    · unfold RecordRequest record
      rw [h]
    · unfold RecordResponse record
      rw [h]
  · intro data hv ho
    have ho2 : json.MarshalOperation
        { Action := InvokeOperation, Proc := proc, Data := data } = .error err := ho
    unfold RecordRequest record
    rw [hv]
    simp only
    rw [ho2]
  · intro data hv ho
    have ho2 : json.MarshalOperation
        { Action := ReturnOperation, Proc := proc, Data := data } = .error err := ho
    unfold RecordResponse record
    rw [hv]
    simp only
    rw [ho2]

/-- The toy codec cannot serialize a record with a negative proc: the call
returns the error and the log keeps its content. -/
theorem serialization_failure_writes_nothing_witness :
    RecordRequest toyJson ⟨[1, 1, 97, 10]⟩ (-1) [98] .done .done =
      (⟨[1, 1, 97, 10]⟩, some "unsupported value") :=
  (serialization_failure_writes_nothing toyJson ⟨[1, 1, 97, 10]⟩ (-1) [98] .done .done
    "unsupported value").2.1 [98] rfl rfl

/-! ## C7: a line that exceeds the scanner's buffer -/

theorem not_mem_zeros_line (n : Nat) : 10 ∉ (1 :: 1 :: List.replicate n 0 : Bytes) := by
  intro hm
  rcases List.mem_cons.mp hm with h2 | h2
  · revert h2; decide
  · rcases List.mem_cons.mp h2 with h3 | h3
    · revert h3; decide
    · have := (List.mem_replicate.mp h3).2
      omega

theorem dropCR_zeros_line (n : Nat) :
    dropCR (1 :: 1 :: List.replicate n 0) = 1 :: 1 :: List.replicate n 0 := by
  unfold dropCR
  rw [if_neg]
  intro hl
  have hm := List.mem_of_getLast?_eq_some hl
  rcases List.mem_cons.mp hm with h2 | h2
  · revert h2; decide
  · rcases List.mem_cons.mp h2 with h3 | h3
    · revert h3; decide
    · have := (List.mem_replicate.mp h3).2
      omega

theorem scanLines_zeros_line (n : Nat) :
    scanLines ((1 :: 1 :: List.replicate n 0) ++ [10]) = [1 :: 1 :: List.replicate n 0] := by
  unfold scanLines
  rw [scanLinesFrom_line _ (not_mem_zeros_line n)]
  simp [scanLinesFrom, dropCR_zeros_line]

theorem lineError_zeros_line (n : Nat) (hn : 2 ≤ n) :
    lineError toyJson toyParser (1 :: 1 :: List.replicate n 0) = none := by
  have hne : List.replicate n (0 : Nat) ≠ [0] := by
    intro h
    have := congrArg List.length h
    rw [List.length_replicate] at this
    simp at this
    omega
  have hun : toyJson.Unmarshal (1 :: 1 :: List.replicate n 0) =
      .ok { Action := "call", Proc := 1, Data := List.replicate n 0 } := rfl
  unfold lineError
  rw [hun]
  have hact : ("call" : String) = InvokeOperation := rfl
  simp only [hact, if_true, toyParser, hne, if_false]

/-- C7, as stated, fails: a log whose only line is an Invoke record of 65538
bytes opens and is read without I/O error and has no bad line (the line decodes
and `OnRequest` accepts it), yet the line exceeds the scanner's buffer and
`VerifyHistory` returns `(false, err)` with the scanner's error. -/
theorem abort_on_first_bad_record_counterexample :
    scanLines ((1 :: 1 :: List.replicate 65536 0) ++ [10]) =
      [1 :: 1 :: List.replicate 65536 0] ∧
    lineError toyJson toyParser (1 :: 1 :: List.replicate 65536 0) = none ∧
    VerifyHistory toyJson
        (fun _ => .ok (scanFile "bufio.Scanner: token too long"
          ((1 :: 1 :: List.replicate 65536 0) ++ [10])))
        (fun (_ : Nat) (_ : List (Event Bytes)) => true) id "log" 0 toyParser =
      { ok := false, err := some "bufio.Scanner: token too long", oracleCalls := [] } :=
  ⟨scanLines_zeros_line 65536, lineError_zeros_line 65536 (by decide),
    VerifyHistory_zeros 65536 (by decide)⟩

end History
